import Mathlib

/-!
Verification of the SkypeLens message-processing core.

This file gives a shallow embedding of the classification / normalization
pipeline of `src/utils/messageProcessor.ts`, the display-name cleaner of
`src/utils/displayName.ts` and the search matcher / highlighter of
`src/utils/messageSearch.ts`, together with proofs about the claims the
specification makes about them.

Modelling conventions:
* Strings are JS strings; scanners are written over `List Char` and wrapped
  with `String.toList` / `String.mk`.
* JavaScript regular-expression machinery that a claim actually exercises
  (the `<target>`/`<value>` extraction, the tag-boundary scanner of the
  search highlighter, the `<[^>]*>` HTML stripper) is embedded concretely,
  following the backtracking semantics of the concrete patterns.
* Platform primitives (the `JSON.parse` built-in, the DOMPurify sanitizer,
  the out-of-tree `parseSkypeEmoji` helper) and regex-driven helpers whose
  values no claim constrains (`extractMediaId`, `parseGenericFile`,
  `parseMediaFileInfo`, the call `<partlist>`/`<part>` tokenizer) are
  abstracted into a `Platform` record; every theorem quantifies over the
  whole record, so nothing proved depends on a particular instantiation.
* `JSON.parse` results are modelled by an inductive `Json` value
  (`Option Json`, `none` = the parse threw); JSON numbers are modelled as
  rationals.
* JS truthiness (`x || y`, `if (!x)`) is modelled explicitly
  (`jsTruthy`, `jsOr`, string-emptiness checks), matching the source.
-/

namespace SkypeLens

/-! ## JS string primitives (ASCII model) -/

/-- ASCII model of `String.prototype.toLowerCase` on a single character. -/
def asciiLower (c : Char) : Char :=
  if 'A' ≤ c ∧ c ≤ 'Z' then Char.ofNat (c.toNat + 32) else c

/-- Lower-case a string character-wise (ASCII model of `toLowerCase()`). -/
def jsToLower (s : String) : String :=
  String.mk (s.toList.map asciiLower)

/-- Characters removed by `String.prototype.trim`. -/
def isJsSpace (c : Char) : Bool :=
  c = ' ' ∨ c = '\t' ∨ c = '\n' ∨ c = '\r' ∨ c = '\x0b' ∨ c = '\x0c' ∨
  c = Char.ofNat 0xa0 ∨ c = Char.ofNat 0xfeff ∨
  c = Char.ofNat 0x2028 ∨ c = Char.ofNat 0x2029

/-- Model of `String.prototype.trim`: strip whitespace from both ends. -/
def jsTrim (s : String) : String :=
  String.mk (((s.toList.dropWhile isJsSpace).reverse.dropWhile isJsSpace).reverse)

/-- Model of `String.prototype.split` with a single-character separator. -/
def splitOnChar (sep : Char) : List Char → List (List Char)
  | [] => [[]]
  | c :: rest =>
    if c = sep then [] :: splitOnChar sep rest
    else
      match splitOnChar sep rest with
      | [] => [[c]]
      | h :: t => (c :: h) :: t

/-- Model of `Array.prototype.join(sep)` for string arrays. -/
def joinSep (sep : String) : List String → String
  | [] => ""
  | [s] => s
  | s :: rest => s ++ sep ++ joinSep sep rest

/-- Boolean prefix test on character lists (model of `startsWith`). -/
def isPrefixL : List Char → List Char → Bool
  | [], _ => true
  | _ :: _, [] => false
  | a :: as, b :: bs => a = b && isPrefixL as bs

/-- Model of `String.prototype.startsWith`. -/
def jsStartsWith (s pre : String) : Bool :=
  isPrefixL pre.toList s.toList

/-- The character class `[^<]` of the extraction patterns. -/
def notLt (ch : Char) : Bool := ch ≠ '<'

/-- The character class `[^>]` of the tag patterns. -/
def notGt (ch : Char) : Bool := ch ≠ '>'

/-- A character that can sit inside a well-formed `<…>` tag body. -/
def isTextChar (ch : Char) : Bool := ch ≠ '<' ∧ ch ≠ '>'

/-- Substring occurrence test on character lists (model of `includes`). -/
def hasSubL (needle : List Char) : List Char → Bool
  | [] => isPrefixL needle []
  | c :: rest => isPrefixL needle (c :: rest) || hasSubL needle rest

/-- Model of `String.prototype.includes`. -/
def jsIncludes (hay needle : String) : Bool :=
  hasSubL needle.toList hay.toList

/-! ## JSON values

`JSON.parse` is a platform built-in; its result is modelled by `Json`
(`Option Json` at parse sites, `none` meaning the parse threw).  Numbers are
modelled as rationals. -/

inductive Json where
  | null : Json
  | bool (b : Bool) : Json
  | num (q : ℚ) : Json
  | str (s : String) : Json
  | arr (elems : List Json) : Json
  | obj (fields : List (String × Json)) : Json
deriving Repr

/-- Property access `v.k` (with optional chaining): defined on objects,
`undefined` (= `none`) elsewhere.  Accessing a property of `null` throws in
JS; every site in the source that can hit that case is wrapped in a
`try`/`catch` returning the same fallback as the `none` path, so `none` is
an extensionally faithful model there. -/
def Json.fieldAt : Json → String → Option Json
  | .obj fs, k => fs.lookup k
  | _, _ => none

/-- Element access `v[i]` for a numeric index: array indexing, string
character access, or the numeric-keyed property of an object. -/
def Json.indexAt : Json → Nat → Option Json
  | .arr es, n => es.get? n
  | .obj fs, n => fs.lookup (toString n)
  | .str s, n => (s.toList.get? n).map (fun c => Json.str (String.mk [c]))
  | _, _ => none

/-- JS truthiness of a JSON value. -/
def jsTruthy : Json → Bool
  | .null => false
  | .bool b => b
  | .num q => q ≠ 0
  | .str s => s ≠ ""
  | .arr _ => true
  | .obj _ => true

/-- Model of `x || y` where `x` may be `undefined` (`none`). -/
def jsOr (a : Option Json) (b : Json) : Json :=
  match a with
  | some v => if jsTruthy v then v else b
  | none => b

/-- Model of `x || y` on nullable strings (`null`/`""` are falsy). -/
def strOr (a : Option String) (b : String) : String :=
  match a with
  | some s => if s = "" then b else s
  | none => b

mutual

/-- Approximate model of JS string coercion (template literals, rendering).
Every value the claims exercise is a `str`, on which this is the identity. -/
def jsCoerceString : Json → String
  | .null => "null"
  | .bool b => if b then "true" else "false"
  | .num q => toString q
  | .str s => s
  | .arr es => joinSep "," (jsCoerceList es)
  | .obj _ => "[object Object]"

/-- Coerce each element of a JSON array (helper for `jsCoerceString`). -/
def jsCoerceList : List Json → List String
  | [] => []
  | j :: rest => jsCoerceString j :: jsCoerceList rest

end

/-! ## Notice / PopCard / Translation payload parsers
(`parseNotice`, `parsePopCard`, `parseTranslationContent` in
`messageProcessor.ts`).  Each takes the result of `JSON.parse` on the
message content (`none` = the parse threw and the `catch` branch runs). -/

/-- The nested navigation `data[0]?.attachments?.[0]?.content` of
`parseNotice`. -/
def noticeAttachment (data : Json) : Option Json :=
  (((data.indexAt 0).bind (fun x => x.fieldAt "attachments")).bind
      (fun a => a.indexAt 0)).bind
    (fun y => y.fieldAt "content")

/-- Embedding of `parseNotice`: `attachment?.title || attachment?.text ||
"System Notice"`, with the `catch` branch returning `"System Notice"`. -/
def parseNotice (parsed : Option Json) : Json :=
  match parsed with
  | none => .str "System Notice"
  | some data =>
    let att := noticeAttachment data
    jsOr (att.bind (fun a => a.fieldAt "title"))
      (jsOr (att.bind (fun a => a.fieldAt "text")) (.str "System Notice"))

/-- Truthiness of a possibly-`undefined` value (`none` is falsy). -/
def optTruthy (o : Option Json) : Bool :=
  match o with
  | some v => jsTruthy v
  | none => false

/-- Embedding of `parsePopCard`: navigate `data[0]?.content`, return
`"{title}: {text}"` when both are truthy, else `title || text ||
"System Message"`; any parse failure or falsy content gives
`"System Message"`. -/
def parsePopCard (parsed : Option Json) : Json :=
  match parsed with
  | none => .str "System Message"
  | some data =>
    match (data.indexAt 0).bind (fun x => x.fieldAt "content") with
    | none => .str "System Message"
    | some c =>
      if !jsTruthy c then .str "System Message"
      else
        let t := c.fieldAt "title"
        let x := c.fieldAt "text"
        if optTruthy t && optTruthy x then
          .str (jsCoerceString (t.getD .null) ++ ": " ++ jsCoerceString (x.getD .null))
        else jsOr t (jsOr x (.str "System Message"))

/-- Embedding of `parseTranslationContent`:
`translationData.translations[0]?.translation || null`, with the `catch`
branch returning `null` (`none`). -/
def parseTranslationContent (parsed : Option Json) : Option String :=
  match parsed with
  | none => none
  | some j =>
    match ((j.fieldAt "translations").bind (fun a => a.indexAt 0)).bind
        (fun e => e.fieldAt "translation") with
    | some v => if jsTruthy v then some (jsCoerceString v) else none
    | none => none

/-! ## Display-name cleaning (`displayName.ts`) -/

/-- Line-terminator characters that JS `.` (no `s` flag) does not match. -/
def isJsLineTerm (c : Char) : Bool :=
  c = '\n' ∨ c = '\r' ∨ c = Char.ofNat 0x2028 ∨ c = Char.ofNat 0x2029

/-- Embedding of `cleanDisplayName`: falsy input gives `null`; an input
matching `^(\d+):(.+)$` (nonempty digit prefix, `:`, nonempty line-break-free
remainder) is replaced by the remainder; anything else is returned as is. -/
def cleanDisplayName (dn : Option String) : Option String :=
  match dn with
  | none => none
  | some s =>
    if s = "" then none
    else
      let cs := s.toList
      let ds := cs.takeWhile Char.isDigit
      match cs.drop ds.length with
      | ':' :: tail =>
        if ds ≠ [] ∧ tail ≠ [] ∧ tail.all (fun ch => !isJsLineTerm ch) then
          some (String.mk tail)
        else some s
      | _ => some s

/-! ## Data model -/

/-- The raw-record fields the processing core reads (`Message` in
`types/messages.ts`; the TS field `from` is embedded as `fromId` since
`from` is a Lean keyword; fields the core never reads are omitted). -/
structure Message where
  id : String
  displayName : Option String
  originalarrivaltime : String
  messagetype : String
  content : String
  conversationid : String
  fromId : String
deriving Repr, DecidableEq

/-- Message kinds (`ProcessedMessage["type"]`). -/
inductive MsgType where
  | text
  | media
  | system
  | call
  | notice
deriving Repr, DecidableEq

/-- The normalized message (`ProcessedMessage` in `types/messages.ts`). -/
structure ProcessedMessage where
  id : String
  displayName : Option String
  timestamp : String
  content : String
  type : MsgType
  fromId : String
  isOwner : Bool
  originalMessageType : String
  mediaUrl : Option String := none
deriving Repr, DecidableEq

/-- The per-pass context (`MessageProcessorContext`); the `mediaFiles` map
is only ever tested for presence, so it is embedded as a flag.  The mutable
`skipIds` set is threaded explicitly through the processing functions. -/
structure Ctx where
  userId : String
  swapRoles : Bool
  hasMediaFiles : Bool
deriving Repr, DecidableEq

/-- One `<part identity="…">…</part>` segment of a call event, as produced
by the `CALL_EVENT_PATTERNS.Part` tokenizer: the identity capture, the first
`<name>` capture (`""` when absent, after `?? ""`), and the `<duration>`
value when present and parsed to a non-`NaN` number (JSON seconds may be
fractional; modelled as rationals). -/
structure CallPart where
  identity : String
  name : String
  duration : Option ℚ
deriving Repr, DecidableEq

/-- External and regex-engine-level primitives the pipeline composes with.
Every theorem below quantifies over the whole record, so no proof depends on
a particular behaviour of these functions:
* `parseSkypeEmojiFn` — `skypeEmoji.ts` (outside the provided sources);
* `contentPatternsFn` — the ordered `CONTENT_PATTERNS` regex rewrite pipeline;
* `sanitizeFn`        — `DOMPurify.sanitize` with `PURIFY_CONFIG`;
* `jsonParseFn`       — the `JSON.parse` built-in (`none` = throw);
* `extractMediaIdFn`  — `mediaUtils.extractMediaId` (regex alternation);
* `parseGenericFileFn`, `parseMediaFileInfoFn` — filename/size extraction;
* `callTypeFn`        — `CALL_EVENT_PATTERNS.Type` first capture;
* `callPartsFn`       — the `<part …>…</part>` segment tokenizer
  (`CALL_EVENT_PATTERNS.Part`/`Name`/`Duration`), yielding for each
  segment its identity, extracted name (`"" ` when absent) and parsed
  duration (`none` when absent or `NaN`). -/
structure Platform where
  parseSkypeEmojiFn : String → String
  contentPatternsFn : String → String
  sanitizeFn : String → String
  jsonParseFn : String → Option Json
  extractMediaIdFn : String → Option String
  parseGenericFileFn : String → String
  parseMediaFileInfoFn : String → String
  callTypeFn : String → Option String
  callPartsFn : String → List CallPart

/-! ## ThreadActivity parsing (`parseThreadActivity`)

The patterns `/<target>([^<]+)<\/target>/g` and `/<value>([^<]+)<\/value>/`
are embedded concretely: a global scan finding, left to right and without
overlap, occurrences of the literal open tag followed by a maximal nonempty
run of non-`<` characters followed by the literal close tag (the JS engine
backtracks exactly to this behaviour because `[^<]+` cannot eat the `<` of
the close tag, and on failure the search restarts one character later). -/

/-- All capture groups of a global `<open>([^<]+)<close>` scan: a match at a
position requires the open tag, a nonempty maximal `<`-free body and the
close tag; on success the scan resumes after the match, on failure one
character later. -/
def scanTagged (openT closeT : List Char) : List Char → List (List Char)
  | [] => []
  | c :: rest =>
    let after := (c :: rest).drop openT.length
    let body := after.takeWhile notLt
    let rest2 := after.drop body.length
    if _h : isPrefixL openT (c :: rest) ∧ body ≠ [] ∧ isPrefixL closeT rest2 then
      body :: scanTagged openT closeT (rest2.drop closeT.length)
    else scanTagged openT closeT rest
termination_by l => l.length
decreasing_by
  · obtain ⟨-, hb, -⟩ := _h
    have hpos : 0 < (((c :: rest).drop openT.length).takeWhile
        notLt).length := List.length_pos.mpr hb
    simp only [List.length_drop, List.length_cons]
    omega
  · simp

/-- The first capture of a non-global `<open>([^<]+)<close>` match. -/
def firstTagged (openT closeT : List Char) (l : List Char) : Option (List Char) :=
  (scanTagged openT closeT l).head?

/-- Strip the namespace prefix of a member id:
`target.split(":").pop() || ""`. -/
def stripNamespace (s : String) : String :=
  String.mk ((splitOnChar ':' s.toList).getLastD [])

/-- Embedding of `parseThreadActivity`. -/
def parseThreadActivity (m : Message) : Option String :=
  if m.messagetype = "ThreadActivity/AddMember" then
    let targets := scanTagged "<target>".toList "</target>".toList m.content.toList
    if targets.isEmpty then none
    else
      let members := joinSep ", "
        (((targets.map (fun b => stripNamespace (String.mk b)))).filter (fun s => s ≠ ""))
      if members ≠ "" then some ("Added " ++ members ++ " to the conversation")
      else none
  else
    match firstTagged "<value>".toList "</value>".toList m.content.toList with
    | none => none
    | some v =>
      let value := jsToLower (String.mk v) = "true"
      if m.messagetype = "ThreadActivity/HistoryDisclosedUpdate" then
        some (if value then "Chat history is now visible"
              else "Chat history is now hidden")
      else if m.messagetype = "ThreadActivity/JoiningEnabledUpdate" then
        some (if value then "Anyone can join this conversation"
              else "Joining this conversation is restricted")
      else none

/-! ## Call events (`formatCallDuration`, `normaliseParticipantName`,
`extractCallDetails`, `parseCallEvent`) -/

/-- Truncation toward zero (JS `%` is truncated remainder). -/
def ratTrunc (q : ℚ) : ℤ :=
  if 0 ≤ q then ⌊q⌋ else -⌊-q⌋

/-- JS `a % b` on numbers: `a - b * trunc(a / b)`. -/
def jsRem (a b : ℚ) : ℚ :=
  a - b * (ratTrunc (a / b) : ℚ)

/-- Embedding of `formatCallDuration`: `Math.floor(seconds / 60)` minutes
and `Math.floor(seconds % 60)` seconds, minutes omitted when zero. -/
def formatCallDuration (seconds : ℚ) : String :=
  let minutes : ℤ := ⌊seconds / 60⌋
  let remainingSeconds : ℤ := ⌊jsRem seconds 60⌋
  if minutes > 0 then toString minutes ++ "m " ++ toString remainingSeconds ++ "s"
  else toString remainingSeconds ++ "s"

/-- Embedding of `normaliseParticipantName`: cleaned trimmed name, else
cleaned identity, else trimmed name, else identity, else the literal. -/
def normaliseParticipantName (name : String) (identity : String) : String :=
  let trimmedName := jsTrim name
  strOr (cleanDisplayName (some trimmedName))
    (strOr (cleanDisplayName (some identity))
      (if trimmedName ≠ "" then trimmedName
       else if identity ≠ "" then identity
       else "Unknown participant"))

/-- A deduplicated participant (`CallParticipant` in the source). -/
structure CallParticipant where
  identity : String
  name : String
deriving Repr, DecidableEq

/-- The `while`-loop of `extractCallDetails`: walk the part segments keeping
a case-insensitive seen-set (first occurrence wins for naming) and folding
the maximum duration (which is updated by every segment, duplicate identity
or not). -/
def extractCallLoop : List CallPart → List String → ℚ → List CallParticipant × ℚ
  | [], _, m => ([], m)
  | p :: rest, seen, m =>
    let key := jsToLower p.identity
    let m2 := match p.duration with
      | some d => max m d
      | none => m
    if seen.contains key then extractCallLoop rest seen m2
    else
      let participant : CallParticipant :=
        ⟨p.identity, normaliseParticipantName p.name p.identity⟩
      let res := extractCallLoop rest (key :: seen) m2
      (participant :: res.1, res.2)

/-- Embedding of `extractCallDetails`: participants plus the maximum
duration, reported only when strictly positive. -/
def extractCallDetails (parts : List CallPart) : List CallParticipant × Option ℚ :=
  let res := extractCallLoop parts [] 0
  (res.1, if res.2 > 0 then some res.2 else none)

/-- A participant normalised for viewer comparison. -/
structure PartNorm where
  identityLower : String
  cleanIdentityLower : String
  label : String
deriving Repr, DecidableEq

/-- The participant labels of `parseCallEvent`: normalise identities,
resolve the effective viewer (swapped perspective picks the first
participant differing from the user), and replace the viewer's label by
`"You"`. -/
def callParticipantLabels (parts : List CallPart) (c : Ctx) : List String :=
  let pd := (extractCallDetails parts).1
  let userIdLower := jsToLower c.userId
  let userCleanLower :=
    match cleanDisplayName (some c.userId) with
    | some s => jsToLower s
    | none => userIdLower
  let participants : List PartNorm := pd.map (fun p =>
    { identityLower := jsToLower p.identity
      cleanIdentityLower :=
        match cleanDisplayName (some p.identity) with
        | some s => jsToLower s
        | none => jsToLower p.identity
      label := p.name })
  let viewer : String × String :=
    if c.swapRoles then
      match participants.find? (fun p =>
          (p.identityLower != userIdLower) && (p.cleanIdentityLower != userCleanLower)) with
      | some op => (op.identityLower, op.cleanIdentityLower)
      | none => (userIdLower, userCleanLower)
    else (userIdLower, userCleanLower)
  participants.map (fun p =>
    if (p.identityLower == viewer.1) || (p.cleanIdentityLower == viewer.2) then "You"
    else p.label)

/-- The `participantsText` of `parseCallEvent` (`join(", ")`, empty when no
participants resolved). -/
def callParticipantsText (parts : List CallPart) (c : Ctx) : String :=
  let labels := callParticipantLabels parts c
  if labels.length > 0 then joinSep ", " labels else ""

/-- Embedding of `parseCallEvent`, over the extracted `type` attribute and
part segments: assemble the final text by outcome type, omitting absent
duration/participant segments. -/
def parseCallEvent (typeAttr : Option String) (parts : List CallPart) (c : Ctx) : String :=
  let rawType := typeAttr.map jsToLower
  let maxDuration := (extractCallDetails parts).2
  let participantsText := callParticipantsText parts c
  let durationText := maxDuration.map formatCallDuration
  match rawType with
  | none =>
    if participantsText ≠ "" then "Call event • " ++ participantsText else "Call event"
  | some t =>
    if t = "" then
      if participantsText ≠ "" then "Call event • " ++ participantsText else "Call event"
    else if t = "started" then
      if participantsText ≠ "" then "Call started • " ++ participantsText
      else "Call started"
    else if t = "missed" then
      if participantsText ≠ "" then "Missed call • " ++ participantsText
      else "Missed call"
    else if t = "ended" then
      match durationText with
      | some dt =>
        if participantsText ≠ "" then
          "Call ended • " ++ dt ++ " • " ++ participantsText
        else "Call ended • " ++ dt
      | none =>
        if participantsText ≠ "" then "Call ended • " ++ participantsText
        else "Call ended"
    else
      if participantsText ≠ "" then "Call " ++ t ++ " • " ++ participantsText
      else "Call " ++ t

/-! ## The classification pipeline (`messageProcessor.ts`) -/

/-- Embedding of `createBaseMessage`: ownership is `from == userId`, flipped
under `swapRoles`; the display name is cleaned. -/
def createBaseMessage (m : Message) (c : Ctx) (content : String)
    (type : MsgType) : ProcessedMessage :=
  { id := m.id
    displayName := cleanDisplayName m.displayName
    timestamp := m.originalarrivaltime
    content := content
    type := type
    fromId := m.fromId
    isOwner := if c.swapRoles then m.fromId ≠ c.userId else m.fromId = c.userId
    originalMessageType := m.messagetype }

/-- Embedding of `handleSystemMessage`: a base message with `displayName`
forced to `null` and `isOwner` forced to `false`. -/
def handleSystemMessage (m : Message) (c : Ctx) (content : String)
    (type : MsgType) : ProcessedMessage :=
  { createBaseMessage m c content type with displayName := none, isOwner := false }

/-- Embedding of `parseMessageContent`: empty content short-circuits,
otherwise emoji extraction, the ordered `CONTENT_PATTERNS` rewrites and the
DOMPurify allow-list filter are applied in order. -/
def parseMessageContent (P : Platform) (content : String) : String :=
  if content = "" then ""
  else P.sanitizeFn (P.contentPatternsFn (P.parseSkypeEmojiFn content))

/-- Embedding of `handleMediaMessage`: media id plus available media files
give a media message carrying the id; otherwise a text message showing the
parsed file info. -/
def handleMediaMessage (P : Platform) (c : Ctx) (m : Message) : ProcessedMessage :=
  let mediaId := P.extractMediaIdFn m.content
  let hasMedia := mediaId.isSome && c.hasMediaFiles
  let content := if hasMedia then parseMessageContent P m.content
                 else P.parseMediaFileInfoFn m.content
  let pm := createBaseMessage m c content (if hasMedia then .media else .text)
  if hasMedia then { pm with mediaUrl := mediaId } else pm

/-- Embedding of `handleTranslation`.  Returns the emitted message (if any)
together with the updated `skipIds`. -/
def handleTranslation (P : Platform) (c : Ctx) (m : Message)
    (next : Option Message) (skip : List String) :
    Option ProcessedMessage × List String :=
  let isFromUserId := m.fromId = c.userId
  match next with
  | some n =>
    if isFromUserId ∧ n.messagetype = "RichText" then
      (some (createBaseMessage { n with fromId := m.fromId } c
        (parseMessageContent P n.content) .text), n.id :: skip)
    else
      let translatedText := parseTranslationContent (P.jsonParseFn m.content)
      let content := strOr translatedText m.content
      let skip2 := if n.messagetype = "RichText" then n.id :: skip else skip
      (some (createBaseMessage m c (parseMessageContent P content) .text), skip2)
  | none =>
    let translatedText := parseTranslationContent (P.jsonParseFn m.content)
    let content := strOr translatedText m.content
    (some (createBaseMessage m c (parseMessageContent P content) .text), skip)

/-- Embedding of `processMessage`: the `typeTag` dispatch chain, in source
order.  Returns the emitted message (if any) and the updated `skipIds`. -/
def processMessage (P : Platform) (c : Ctx) (m : Message)
    (next : Option Message) (skip : List String) :
    Option ProcessedMessage × List String :=
  if skip.contains m.id then (none, skip)
  else if m.messagetype = "RichText/Media_Album" then (none, skip)
  else if m.messagetype = "Translation" then handleTranslation P c m next skip
  else if m.messagetype = "RichText/UriObject" ∨
      m.messagetype = "RichText/Media_Video" then
    (some (handleMediaMessage P c m), skip)
  else if m.messagetype = "RichText/Media_GenericFile" then
    (some (createBaseMessage m c (P.parseGenericFileFn m.content) .text), skip)
  else if m.messagetype = "RichText" then
    (some (createBaseMessage m c (parseMessageContent P m.content) .text), skip)
  else if jsStartsWith m.messagetype "ThreadActivity" then
    match parseThreadActivity m with
    | some systemContent => (some (handleSystemMessage m c systemContent .system), skip)
    | none => (none, skip)
  else if jsStartsWith m.messagetype "Event/Call" then
    (some (createBaseMessage m c
      (parseCallEvent (P.callTypeFn m.content) (P.callPartsFn m.content) c) .call), skip)
  else if m.messagetype = "Notice" then
    (some (handleSystemMessage m c
      (jsCoerceString (parseNotice (P.jsonParseFn m.content))) .notice), skip)
  else if m.messagetype = "PopCard" then
    (some (handleSystemMessage m c
      (jsCoerceString (parsePopCard (P.jsonParseFn m.content))) .notice), skip)
  else if jsStartsWith m.messagetype "InviteFreeRelationshipChanged" then
    (some (handleSystemMessage m c (parseMessageContent P m.content) .system), skip)
  else if m.messagetype = "Text" then
    (some (createBaseMessage m c m.content .text), skip)
  else
    (some (createBaseMessage m c (parseMessageContent P m.content) .text), skip)

/-- The `for` loop of `processMessages`: `budget` is the number of loop
iterations left (`endIndex - i`); the lookahead `next` is the head of the
remaining full list, beyond the budget if need be, exactly like
`messages[i + 1]`. -/
def processAux (P : Platform) (c : Ctx) :
    Nat → List Message → List String → List ProcessedMessage
  | 0, _, _ => []
  | _ + 1, [], _ => []
  | budget + 1, m :: rest, skip =>
    if skip.contains m.id then processAux P c budget rest skip
    else
      match processMessage P c m rest.head? skip with
      | (some pm, skip2) => pm :: processAux P c budget rest skip2
      | (none, skip2) => processAux P c budget rest skip2

/-- Embedding of `processMessages`: a fresh empty `skipIds`, an `endIndex`
computed from the (JS-truthy) `maxMessages` bound, then the loop. -/
def processMessages (P : Platform) (c : Ctx) (messages : List Message)
    (maxMessages : Option Nat) : List ProcessedMessage :=
  let endIndex :=
    match maxMessages with
    | some n => if n = 0 then messages.length else min n messages.length
    | none => messages.length
  processAux P c endIndex messages []

/-- Instrumented variant of the loop that records, for each emitted message,
the index of the raw record whose iteration emitted it. -/
def processAuxIdx (P : Platform) (c : Ctx) :
    Nat → Nat → List Message → List String → List (Nat × ProcessedMessage)
  | _, 0, _, _ => []
  | _, _ + 1, [], _ => []
  | i, budget + 1, m :: rest, skip =>
    if skip.contains m.id then processAuxIdx P c (i + 1) budget rest skip
    else
      match processMessage P c m rest.head? skip with
      | (some pm, skip2) => (i, pm) :: processAuxIdx P c (i + 1) budget rest skip2
      | (none, skip2) => processAuxIdx P c (i + 1) budget rest skip2

/-- Instrumented `processMessages` (same pass, with source indices). -/
def processMessagesIdx (P : Platform) (c : Ctx) (messages : List Message)
    (maxMessages : Option Nat) : List (Nat × ProcessedMessage) :=
  let endIndex :=
    match maxMessages with
    | some n => if n = 0 then messages.length else min n messages.length
    | none => messages.length
  processAuxIdx P c 0 endIndex messages []

/-! ## Search (`messageSearch.ts`) -/

/-- The dependency-free branch of `stripHtmlForSearch`: remove every
`<[^>]*>` span (the body may be empty; a `<` with no later `>` does not
match and is kept). -/
def stripTags : List Char → List Char
  | [] => []
  | c :: rest =>
    if c = '<' then
      let pre := rest.takeWhile notGt
      if pre.length < rest.length then stripTags (rest.drop (pre.length + 1))
      else c :: stripTags rest
    else c :: stripTags rest
termination_by l => l.length
decreasing_by
  · simp only [List.length_drop, List.length_cons]
    omega
  · simp
  · simp

/-- Embedding of `stripHtmlForSearch` (the DOM-free fallback branch). -/
def stripHtmlForSearch (html : String) : String :=
  if html = "" then "" else String.mk (stripTags html.toList)

/-- Embedding of `messageMatchesSearch`: empty/whitespace query matches
everything; otherwise case-insensitive substring test on the HTML-stripped
content and on the display name. -/
def messageMatchesSearch (m : ProcessedMessage) (query : String) : Bool :=
  if jsTrim query = "" then true
  else
    let searchQuery := jsTrim (jsToLower query)
    let contentText := jsToLower (stripHtmlForSearch m.content)
    let displayNameText := jsToLower (m.displayName.getD "")
    jsIncludes contentText searchQuery || jsIncludes displayNameText searchQuery

/-- Embedding of `filterMessages`. -/
def filterMessages (messages : List ProcessedMessage) (query : String) :
    List ProcessedMessage :=
  if jsTrim query = "" then messages
  else messages.filter (fun m => messageMatchesSearch m query)

/-- The index loop of `findMatchingMessageIndices`. -/
def findIdxAux (query : String) : Nat → List ProcessedMessage → List Nat
  | _, [] => []
  | i, m :: rest =>
    if messageMatchesSearch m query then i :: findIdxAux query (i + 1) rest
    else findIdxAux query (i + 1) rest

/-- Embedding of `findMatchingMessageIndices`: the empty/whitespace query
returns the empty index list. -/
def findMatchingMessageIndices (messages : List ProcessedMessage)
    (query : String) : List Nat :=
  if jsTrim query = "" then []
  else findIdxAux query 0 messages

/-! ## Search highlighting (`highlightSearchMatch`)

The query is regex-escaped in the source, so the global case-insensitive
regex is a literal substring matcher; the replacement wraps each leftmost,
non-overlapping match in the fixed `<mark …>…</mark>` pair. -/

/-- The inserted opening wrapper (exact replacement string of the source). -/
def markOpen : List Char :=
  "<mark style=\"background-color: rgba(255, 255, 0, 0.4); padding: 2px 0;\">".toList

/-- The inserted closing wrapper. -/
def markClose : List Char := "</mark>".toList

/-- Case-insensitive literal prefix test (ASCII model of the `i` flag). -/
def matchesAt (q l : List Char) : Bool :=
  isPrefixL (q.map asciiLower) (l.map asciiLower)

/-- Model of `text.replace(regex, '<mark …>$1</mark>')` with the literal
case-insensitive global regex: wrap each leftmost non-overlapping match.
A defensive guard returns the text unchanged for an empty query (the call
sites guarantee the trimmed query is nonempty). -/
def highlightText (q : List Char) : List Char → List Char
  | [] => []
  | c :: rest =>
    if q = [] then c :: rest
    else if matchesAt q (c :: rest) then
      markOpen ++ (c :: rest).take q.length ++ markClose ++
        highlightText q ((c :: rest).drop q.length)
    else c :: highlightText q rest
termination_by l => l.length
decreasing_by
  · have hq : 0 < q.length := List.length_pos.mpr (by assumption)
    simp only [List.length_drop, List.length_cons]
    omega
  · simp

/-- The number of matches `highlightText` wraps. -/
def countMatches (q : List Char) : List Char → Nat
  | [] => 0
  | c :: rest =>
    if q = [] then 0
    else if matchesAt q (c :: rest) then
      1 + countMatches q ((c :: rest).drop q.length)
    else countMatches q rest
termination_by l => l.length
decreasing_by
  · have hq : 0 < q.length := List.length_pos.mpr (by assumption)
    simp only [List.length_drop, List.length_cons]
    omega
  · simp

/-- Model of the `/<[^>]+>/` test choosing between the plain-text and the
tag-aware paths: is there a `<`, a nonempty `>`-free run, then a `>`. -/
def hasTagPat : List Char → Bool
  | [] => false
  | c :: rest =>
    if c = '<' then
      (let pre := rest.takeWhile notGt
       pre ≠ [] && pre.length < rest.length) || hasTagPat rest
    else hasTagPat rest

/-- The single-pass tag-boundary state machine of `highlightSearchMatch`:
`pending` is the span `html[lastIndex..i)`, `inTag` the scanner flag.  A `<`
flushes the pending span as highlighted text and opens a tag span; a `>`
while in a tag flushes the span verbatim; the final pending span is flushed
as highlighted text (even an unclosed tag). -/
def hlScan (q : List Char) (pending : List Char) (inTag : Bool) :
    List Char → List Char
  | [] => highlightText q pending
  | c :: rest =>
    if c = '<' then highlightText q pending ++ hlScan q ['<'] true rest
    else if c = '>' ∧ inTag then (pending ++ ['>']) ++ hlScan q [] false rest
    else hlScan q (pending ++ [c]) inTag rest

/-- The number of wrapped runs the state machine inserts. -/
def hlScanCount (q : List Char) (pending : List Char) (inTag : Bool) :
    List Char → Nat
  | [] => countMatches q pending
  | c :: rest =>
    if c = '<' then countMatches q pending + hlScanCount q ['<'] true rest
    else if c = '>' ∧ inTag then hlScanCount q [] false rest
    else hlScanCount q (pending ++ [c]) inTag rest

/-- Embedding of `highlightSearchMatch`: guards for empty query or content,
then the plain-text or tag-aware path. -/
def highlightSearchMatch (html query : String) : String :=
  if jsTrim query = "" ∨ html = "" then html
  else
    let searchQuery := (jsTrim query).toList
    if !hasTagPat html.toList then
      String.mk (highlightText searchQuery html.toList)
    else
      String.mk (hlScan searchQuery [] false html.toList)

/-- The number of highlight wrappers `highlightSearchMatch` inserts. -/
def highlightRuns (html query : String) : Nat :=
  if jsTrim query = "" ∨ html = "" then 0
  else
    let searchQuery := (jsTrim query).toList
    if !hasTagPat html.toList then countMatches searchQuery html.toList
    else hlScanCount searchQuery [] false html.toList

/-! ## Tag-structure observations used to state the highlighter claims -/

/-- All well-formed tag spans of a string: maximal `<…>` spans whose body is
nonempty and free of `<` and `>`.  A `<` not followed by such a body and a
`>` starts no tag. -/
def extractTags : List Char → List (List Char)
  | [] => []
  | c :: rest =>
    if c = '<' then
      let pre := rest.takeWhile isTextChar
      let rest2 := rest.drop pre.length
      if pre ≠ [] ∧ rest2.head? = some '>' then
        ('<' :: pre ++ ['>']) :: extractTags (rest2.drop 1)
      else extractTags rest
    else extractTags rest
termination_by l => l.length
decreasing_by
  · have hle : (rest.takeWhile isTextChar).length ≤ rest.length :=
      (List.takeWhile_prefix _).length_le
    simp only [List.length_drop, List.length_cons]
    omega
  · simp
  · simp

/-- The well-formed-tag-free predicate: after every `<` of the string, the
`>`-free run is empty (an immediate `>`) or the whole rest (no `>` at all).
Text chunks flushed by the scanner and inputs of the plain-text path satisfy
this. -/
def NoTagIn : List Char → Prop
  | [] => True
  | c :: rest =>
    (c = '<' → rest.takeWhile notGt = [] ∨ rest.takeWhile notGt = rest) ∧
      NoTagIn rest

/-- A tag other than the two inserted highlight wrappers. -/
def isNonMark (t : List Char) : Bool := t ≠ markOpen ∧ t ≠ markClose

/-- Keep only the tags that are not the inserted highlight wrappers. -/
def nonMarkTags (l : List Char) : List (List Char) :=
  (extractTags l).filter isNonMark

/-! ## Concrete fixtures -/

/-- A `Platform` instance for concrete witnesses: every abstract primitive
is the identity (or constantly absent). -/
def idPlatform : Platform :=
  { parseSkypeEmojiFn := id
    contentPatternsFn := id
    sanitizeFn := id
    jsonParseFn := fun _ => none
    extractMediaIdFn := fun _ => none
    parseGenericFileFn := id
    parseMediaFileInfoFn := id
    callTypeFn := fun _ => none
    callPartsFn := fun _ => [] }

/-- The parsed content of the spec's Notice scenario
`[{"attachments":[{"content":{"title":"Alert","text":"Storage low"}}]}]`. -/
def noticeScenarioJson : Json :=
  .arr [.obj [("attachments", .arr [.obj [("content",
    .obj [("title", .str "Alert"), ("text", .str "Storage low")])]])]]

/-! ## Claim C1 (Notice content) — corrected

The source's `parseNotice` returns `attachment?.title || attachment?.text ||
"System Notice"`: when both title and text are present it returns the title
alone, never `"{title}: {text}"` (that combined form is `parsePopCard`'s
behaviour).  On the spec's own scenario the result is `"Alert"`. -/

/-- Claim C1, counterexample: on the spec's scenario input, with both a
title and a text present, the parsed notice content is not
`"Alert: Storage low"` (it is `"Alert"`). -/
theorem claim_C1_counterexample :
    parseNotice (some noticeScenarioJson) = Json.str "Alert" ∧
    parseNotice (some noticeScenarioJson) ≠ Json.str "Alert: Storage low" := by
  refine ⟨rfl, fun hEq => ?_⟩
  rw [show parseNotice (some noticeScenarioJson) = Json.str "Alert" from rfl] at hEq
  injection hEq with h
  exact absurd h (by decide)

/-- Claim C1 (amended): for every Notice payload whose attachment content
object is reachable, the parsed content is the title alone when the title is
a nonempty string (even when a text is also present), else the text when it
is a nonempty string, else the fixed fallback `"System Notice"`. -/
theorem claim_C1 (j a : Json) (t x : String)
    (hatt : noticeAttachment j = some a) :
    (a.fieldAt "title" = some (.str t) → t ≠ "" →
      parseNotice (some j) = .str t) ∧
    (a.fieldAt "title" = none → a.fieldAt "text" = some (.str x) → x ≠ "" →
      parseNotice (some j) = .str x) ∧
    (a.fieldAt "title" = none → a.fieldAt "text" = none →
      parseNotice (some j) = .str "System Notice") := by
  refine ⟨fun ht hne => ?_, fun ht hx hne => ?_, fun ht hx => ?_⟩ <;>
    simp [parseNotice, hatt, ht, jsOr, jsTruthy, *]

/-- Claim C1 witness: the scenario input satisfies the hypotheses and the
amended claim evaluates on it to `"Alert"`. -/
theorem claim_C1_witness :
    noticeAttachment noticeScenarioJson =
      some (.obj [("title", .str "Alert"), ("text", .str "Storage low")]) ∧
    parseNotice (some noticeScenarioJson) = .str "Alert" :=
  ⟨rfl,
    (claim_C1 noticeScenarioJson
        (.obj [("title", .str "Alert"), ("text", .str "Storage low")])
        "Alert" "Storage low" rfl).1 rfl (by decide)⟩

/-! ## Claim C9 (malformed Notice JSON) — confirmed

A Notice whose content fails to parse (or parses to a value without the
attachment structure) yields the fixed fallback `"System Notice"`, and the
record is still emitted.  The embedding is a total function: the `catch`
branch of the source is the `none` case, so no exception escapes. -/

/-- Claim C9: a failed parse gives `"System Notice"`; a parse without the
expected attachment structure gives `"System Notice"`; and a Notice record
whose content fails to parse is still emitted, as a notice-kind message with
content `"System Notice"`. -/
theorem claim_C9 (P : Platform) (c : Ctx) (m : Message) (next : Option Message)
    (skip : List String) (j : Json)
    (hty : m.messagetype = "Notice") (hskip : skip.contains m.id = false)
    (hparse : P.jsonParseFn m.content = none) :
    parseNotice none = .str "System Notice" ∧
    (noticeAttachment j = none → parseNotice (some j) = .str "System Notice") ∧
    processMessage P c m next skip =
      (some (handleSystemMessage m c "System Notice" .notice), skip) := by
  refine ⟨rfl, fun hna => by simp [parseNotice, hna, jsOr], ?_⟩
  have h1 : m.messagetype ≠ "RichText/Media_Album" := by rw [hty]; decide
  have h2 : m.messagetype ≠ "Translation" := by rw [hty]; decide
  have h3 : m.messagetype ≠ "RichText/UriObject" := by rw [hty]; decide
  have h4 : m.messagetype ≠ "RichText/Media_Video" := by rw [hty]; decide
  have h5 : m.messagetype ≠ "RichText/Media_GenericFile" := by rw [hty]; decide
  have h6 : m.messagetype ≠ "RichText" := by rw [hty]; decide
  have h7 : jsStartsWith m.messagetype "ThreadActivity" = false := by
    rw [hty]; decide
  have h8 : jsStartsWith m.messagetype "Event/Call" = false := by
    rw [hty]; decide
  have hskip2 : m.id ∉ skip := by simpa using hskip
  simp +decide [processMessage, hskip2, h1, h2, h3, h4, h5, h6, h7, h8, hty,
    hparse, parseNotice, jsCoerceString]

/-- Claim C9 witness: a concrete malformed Notice record (the identity
platform's `JSON.parse` always throws) is emitted with content
`"System Notice"`. -/
theorem claim_C9_witness :
    ("not json".length > 0 ∧ idPlatform.jsonParseFn "not json" = none) ∧
    processMessage idPlatform ⟨"8:me", false, false⟩
      ⟨"n1", none, "t0", "Notice", "not json", "c1", "8:them"⟩ none [] =
      (some (handleSystemMessage ⟨"n1", none, "t0", "Notice", "not json", "c1", "8:them"⟩
        ⟨"8:me", false, false⟩ "System Notice" .notice), []) :=
  ⟨⟨by decide, rfl⟩,
    (claim_C9 idPlatform ⟨"8:me", false, false⟩
      ⟨"n1", none, "t0", "Notice", "not json", "c1", "8:them"⟩ none [] Json.null
      rfl rfl rfl).2.2⟩

/-! ## Claim C5 (empty search query) — corrected

For an empty or whitespace-only query every message matches and
`filterMessages` is the identity, but `findMatchingMessageIndices` returns
the **empty** index list (`if (!query.trim()) return []`), not the index of
every message. -/

/-- A minimal processed message used as a concrete search fixture. -/
def pmBlank : ProcessedMessage :=
  { id := "m1", displayName := some "Alice", timestamp := "t0",
    content := "hello", type := .text, fromId := "8:alice", isOwner := false,
    originalMessageType := "RichText" }

/-- Claim C5, counterexample: on a one-message list and a whitespace-only
query, `findMatchingMessageIndices` does not return every index. -/
theorem claim_C5_counterexample :
    findMatchingMessageIndices [pmBlank] " " = [] ∧
    findMatchingMessageIndices [pmBlank] " " ≠ [0] := by
  constructor
  · rfl
  · intro h
    rw [show findMatchingMessageIndices [pmBlank] " " = [] from rfl] at h
    exact absurd h (by decide)

/-- Claim C5 (amended): for an empty or whitespace-only query every message
matches and `filterMessages` returns its input unchanged, but
`findMatchingMessageIndices` returns the empty list. -/
theorem claim_C5 (messages : List ProcessedMessage) (query : String)
    (h : jsTrim query = "") :
    filterMessages messages query = messages ∧
    (∀ m : ProcessedMessage, messageMatchesSearch m query = true) ∧
    findMatchingMessageIndices messages query = [] := by
  refine ⟨?_, fun m => ?_, ?_⟩ <;>
    simp [filterMessages, messageMatchesSearch, findMatchingMessageIndices, h]

/-- Claim C5 witness: a whitespace-only query on a concrete one-message
list. -/
theorem claim_C5_witness :
    jsTrim " " = "" ∧
    (filterMessages [pmBlank] " " = [pmBlank] ∧
      findMatchingMessageIndices [pmBlank] " " = []) :=
  ⟨by decide,
    ⟨(claim_C5 [pmBlank] " " (by decide)).1,
      (claim_C5 [pmBlank] " " (by decide)).2.2⟩⟩

/-! ## Claim C3 (AddMember members list) — corrected

The `<target>` values are extracted, namespace-stripped and the nonempty
results joined with `", "` — but **all** of them, in order, without any
deduplication (`targetMatches.map(...).filter(Boolean).join(", ")` keeps
duplicates); the claim's "distinct" does not hold.  Empty result still
yields `null`. -/

/-- A well-formed `<target>…</target>` concatenation. -/
def encodeTargets : List String → List Char
  | [] => []
  | v :: rest =>
    "<target>".toList ++ (v.toList ++ ("</target>".toList ++ encodeTargets rest))

/-- A prefix test always succeeds on the corresponding append. -/
theorem isPrefixL_append_self (a b : List Char) : isPrefixL a (a ++ b) = true := by
  induction a with
  | nil => rfl
  | cons c rest ih => simp [isPrefixL, ih]

/-- Take-while over an append whose left part satisfies the predicate and
whose right part starts with `<`. -/
theorem takeWhile_lt_append (v w : List Char) (hv : ∀ ch ∈ v, ch ≠ '<')
    (hw : w.head? = some '<') :
    (v ++ w).takeWhile notLt = v := by
  induction v with
  | nil =>
    cases w with
    | nil => simp at hw
    | cons c rest =>
      simp only [List.head?_cons, Option.some.injEq] at hw
      subst hw
      simp [List.takeWhile_cons, notLt]
  | cons c rest ih =>
    have hc : c ≠ '<' := hv c (by simp)
    have ih2 := ih (fun ch hch => hv ch (List.mem_cons_of_mem _ hch))
    simp only [List.cons_append, List.takeWhile_cons]
    rw [if_pos (show notLt c = true by simp [notLt, hc])]
    exact congrArg (c :: ·) ih2

/-- One step of the global `<open>…<close>` scan on a well-formed
encoding. -/
theorem scanTagged_emit (o cl v tail : List Char) (ho : o ≠ [])
    (hv : v ≠ []) (hvlt : ∀ ch ∈ v, ch ≠ '<') (hcl : cl.head? = some '<') :
    scanTagged o cl (o ++ (v ++ (cl ++ tail))) = v :: scanTagged o cl tail := by
  obtain ⟨c, ot, rfl⟩ : ∃ c ot, o = c :: ot := by
    cases o with
    | nil => exact absurd rfl ho
    | cons c ot => exact ⟨c, ot, rfl⟩
  simp only [List.cons_append]
  rw [scanTagged]
  have hafter : (c :: (ot ++ (v ++ (cl ++ tail)))).drop (c :: ot).length =
      v ++ (cl ++ tail) := by
    simp only [List.length_cons, List.drop_succ_cons]
    exact List.drop_left ot (v ++ (cl ++ tail))
  rw [hafter]
  have hbody : (v ++ (cl ++ tail)).takeWhile notLt = v :=
    takeWhile_lt_append v (cl ++ tail) hvlt (by
      cases cl with
      | nil => simp at hcl
      | cons a r =>
        simp only [List.head?_cons, Option.some.injEq] at hcl
        simp [hcl])
  rw [hbody]
  have hrest2 : (v ++ (cl ++ tail)).drop v.length = cl ++ tail :=
    List.drop_left v (cl ++ tail)
  rw [hrest2]
  have hcond : isPrefixL (c :: ot) (c :: (ot ++ (v ++ (cl ++ tail)))) = true ∧
      v ≠ [] ∧ isPrefixL cl (cl ++ tail) = true := by
    refine ⟨?_, hv, isPrefixL_append_self cl tail⟩
    have := isPrefixL_append_self (c :: ot) (v ++ (cl ++ tail))
    simpa using this
  rw [dif_pos hcond]
  congr 1
  congr 1
  exact List.drop_left cl tail

/-- The global scan over a well-formed `<target>` encoding returns exactly
the encoded values, in order and with duplicates kept. -/
theorem scanTagged_encode (vs : List String)
    (h : ∀ v ∈ vs, v ≠ "" ∧ ∀ ch ∈ v.toList, ch ≠ '<') :
    scanTagged "<target>".toList "</target>".toList (encodeTargets vs) =
      vs.map String.toList := by
  induction vs with
  | nil => simp [encodeTargets, scanTagged]
  | cons v rest ih =>
    have hv := h v (by simp)
    have hne : v.toList ≠ [] := by
      intro hnil
      apply hv.1
      cases v with
      | mk d =>
        simp only [String.toList] at hnil
        exact congrArg String.mk hnil
    rw [encodeTargets, scanTagged_emit _ _ _ _ (by decide) hne hv.2 (by decide)]
    rw [ih (fun w hw => h w (by simp [hw]))]
    rfl

/-- Rebuilding a string from its character list. -/
theorem mk_toList (s : String) : String.mk s.toList = s := by
  cases s
  rfl

/-- A concrete AddMember record with a duplicated target. -/
def addMemberDupMsg : Message :=
  { id := "m1", displayName := none, originalarrivaltime := "t0",
    messagetype := "ThreadActivity/AddMember",
    content := "<target>8:alice</target><target>8:alice</target>",
    conversationid := "c1", fromId := "8:bob" }

/-- Claim C3, counterexample: a duplicated target is joined twice (the
parser keeps duplicates), so the claimed distinct join is not produced. -/
theorem claim_C3_counterexample :
    parseThreadActivity addMemberDupMsg =
      some "Added alice, alice to the conversation" ∧
    parseThreadActivity addMemberDupMsg ≠
      some "Added alice to the conversation" := by
  have hval : parseThreadActivity addMemberDupMsg =
      some "Added alice, alice to the conversation" := by
    have hsc : scanTagged "<target>".toList "</target>".toList
        addMemberDupMsg.content.toList =
        [("8:alice" : String).toList, ("8:alice" : String).toList] := by
      have := scanTagged_encode ["8:alice", "8:alice"] (by decide)
      simpa [encodeTargets] using this
    simp [parseThreadActivity, addMemberDupMsg] at hsc ⊢
    rw [hsc]
    simp +decide [stripNamespace, splitOnChar, joinSep]
  refine ⟨hval, fun hEq => ?_⟩
  rw [hval] at hEq
  injection hEq with h
  exact absurd h (by decide)

/-- Claim C3 (amended): for every AddMember record whose content is a
well-formed `<target>` list, the parser strips each value's namespace prefix
up to the last colon, keeps **all** nonempty results in order (duplicates
included), joins them with `", "` and returns `"Added {list} to the
conversation"`; when no targets survive it returns `null` and the record is
dropped upstream. -/
theorem claim_C3 (m : Message) (vs : List String)
    (hty : m.messagetype = "ThreadActivity/AddMember")
    (hvs : ∀ v ∈ vs, v ≠ "" ∧ ∀ ch ∈ v.toList, ch ≠ '<')
    (hc : m.content.toList = encodeTargets vs) :
    parseThreadActivity m =
      (if vs = [] then none
       else
        let members := joinSep ", " ((vs.map stripNamespace).filter (fun s => s ≠ ""))
        if members ≠ "" then some ("Added " ++ members ++ " to the conversation")
        else none) := by
  rw [parseThreadActivity, if_pos hty, hc, scanTagged_encode vs hvs]
  have hmap : (vs.map String.toList).map (fun b => stripNamespace (String.mk b)) =
      vs.map stripNamespace := by
    rw [List.map_map]
    exact List.map_congr_left (fun w _ => by
      simp only [Function.comp_apply, mk_toList])
  simp only [hmap]
  cases vs with
  | nil => simp
  | cons v rest => simp

/-- A concrete AddMember record with the spec's two targets. -/
def addMemberPairMsg : Message :=
  { id := "m2", displayName := none, originalarrivaltime := "t0",
    messagetype := "ThreadActivity/AddMember",
    content := "<target>8:alice</target><target>8:bob</target>",
    conversationid := "c1", fromId := "8:bob" }

/-- Claim C3 witness: the spec's own two-target scenario (`8:alice`,
`8:bob`) yields `"Added alice, bob to the conversation"`. -/
theorem claim_C3_witness :
    parseThreadActivity addMemberPairMsg =
      some "Added alice, bob to the conversation" := by
  have h := claim_C3 addMemberPairMsg ["8:alice", "8:bob"] rfl (by decide)
    (by decide)
  rw [h]
  simp +decide [stripNamespace, splitOnChar, joinSep]

/-! ## Claims C7 and C10 (call duration) — confirmed

The maximum duration across all part segments is reported (when strictly
positive) and formatted as `"{M}m {S}s"` from 60 seconds up, `"{S}s"`
below; when no segment has a strictly positive duration the extracted
maximum is `null` and the `"ended"` text carries no duration segment. -/

/-- The durations carried by a part-segment list. -/
def partDurations (parts : List CallPart) : List ℚ :=
  parts.filterMap (fun p => p.duration)

/-- The running maximum of the extraction loop folds the durations. -/
theorem extractCallLoop_snd (parts : List CallPart) :
    ∀ (seen : List String) (m : ℚ),
      (extractCallLoop parts seen m).2 = (partDurations parts).foldl max m := by
  induction parts with
  | nil => intro seen m; rfl
  | cons p rest ih =>
    intro seen m
    rw [extractCallLoop]
    rcases hd : p.duration with _ | d
    · simp only [hd, partDurations, List.filterMap_cons, hd]
      by_cases hseen : seen.contains (jsToLower p.identity)
      · simp only [if_pos hseen]
        exact ih seen m
      · simp only [if_neg hseen]
        exact ih _ m
    · simp only [hd, partDurations, List.filterMap_cons, hd]
      by_cases hseen : seen.contains (jsToLower p.identity)
      · simp only [if_pos hseen, List.foldl_cons]
        exact ih seen (max m d)
      · simp only [if_neg hseen, List.foldl_cons]
        exact ih _ (max m d)

/-- Folding `max` over a list bounded by the seed leaves the seed. -/
theorem foldl_max_const (l : List ℚ) (a : ℚ) (h : ∀ x ∈ l, x ≤ a) :
    l.foldl max a = a := by
  induction l with
  | nil => rfl
  | cons x rest ih =>
    rw [List.foldl_cons, max_eq_left (h x (by simp))]
    exact ih (fun y hy => h y (by simp [hy]))

/-- Folding `max` over a list containing its upper bound yields it. -/
theorem foldl_max_eq (l : List ℚ) (m d : ℚ) (hd : d ∈ l)
    (hub : ∀ x ∈ l, x ≤ d) (hm : m ≤ d) : l.foldl max m = d := by
  induction l generalizing m with
  | nil => simp at hd
  | cons x rest ih =>
    rw [List.foldl_cons]
    rcases List.mem_cons.mp hd with hx | hrest
    · subst hx
      by_cases hmem : d ∈ rest
      · exact ih (max m d) hmem (fun y hy => hub y (List.mem_cons_of_mem _ hy))
          (max_le hm le_rfl)
      · rw [max_eq_right hm]
        exact foldl_max_const rest d (fun y hy => hub y (List.mem_cons_of_mem _ hy))
    · exact ih (max m x) hrest (fun y hy => hub y (List.mem_cons_of_mem _ hy))
        (max_le hm (hub x (by simp)))

/-- The spec's three-segment example (durations 5 s, 42 s, 17 s). -/
def callExampleParts : List CallPart :=
  [⟨"8:a", "Ann", some 5⟩, ⟨"8:b", "Bob", some 42⟩, ⟨"8:c", "Cyd", some 17⟩]

/-- Claim C7: the reported duration is the maximum duration across all
segments (when positive); a duration of at least 60 s is formatted
`"{M}m {S}s"`, a smaller one `"{S}s"`; the 5/42/17 example reports 42 and
formats to `"42s"`. -/
theorem claim_C7 :
    (∀ (parts : List CallPart) (d : ℚ),
        d ∈ partDurations parts → (∀ x ∈ partDurations parts, x ≤ d) →
        0 < d → (extractCallDetails parts).2 = some d) ∧
    (∀ s : ℚ, 60 ≤ s →
        formatCallDuration s =
          toString ⌊s / 60⌋ ++ "m " ++ toString (⌊s⌋ - 60 * ⌊s / 60⌋) ++ "s") ∧
    (∀ s : ℚ, 0 ≤ s → s < 60 → formatCallDuration s = toString ⌊s⌋ ++ "s") ∧
    ((extractCallDetails callExampleParts).2 = some 42 ∧
      formatCallDuration 42 = "42s") := by
  have hfold : ∀ (parts : List CallPart) (d : ℚ),
      d ∈ partDurations parts → (∀ x ∈ partDurations parts, x ≤ d) →
      0 < d → (extractCallDetails parts).2 = some d := by
    intro parts d hd hub hpos
    have h1 : (extractCallLoop parts [] 0).2 = d := by
      rw [extractCallLoop_snd]
      exact foldl_max_eq _ 0 d hd hub (le_of_lt hpos)
    simp [extractCallDetails, h1, hpos]
  have hhigh : ∀ s : ℚ, 60 ≤ s →
      formatCallDuration s =
        toString ⌊s / 60⌋ ++ "m " ++ toString (⌊s⌋ - 60 * ⌊s / 60⌋) ++ "s" := by
    intro s hs
    have hs0 : (0:ℚ) ≤ s := le_trans (by norm_num) hs
    have hdiv0 : (0:ℚ) ≤ s / 60 := div_nonneg hs0 (by norm_num)
    have htr : ratTrunc (s / 60) = ⌊s / 60⌋ := by rw [ratTrunc, if_pos hdiv0]
    have hmin : (0:ℤ) < ⌊s / 60⌋ := by
      have h1 : (1:ℚ) ≤ s / 60 := (le_div_iff₀ (by norm_num)).mpr (by linarith)
      have h2 : (1:ℤ) ≤ ⌊s / 60⌋ := Int.le_floor.mpr (by push_cast; exact h1)
      omega
    have hrem : ⌊jsRem s 60⌋ = ⌊s⌋ - 60 * ⌊s / 60⌋ := by
      rw [jsRem, htr]
      rw [show (60:ℚ) * (⌊s / 60⌋ : ℚ) = ((60 * ⌊s / 60⌋ : ℤ) : ℚ) by push_cast; ring]
      rw [Int.floor_sub_int]
    rw [formatCallDuration]
    simp only [hrem, if_pos hmin]
  have hlow : ∀ s : ℚ, 0 ≤ s → s < 60 →
      formatCallDuration s = toString ⌊s⌋ ++ "s" := by
    intro s hs0 hs
    have hdiv0 : (0:ℚ) ≤ s / 60 := div_nonneg hs0 (by norm_num)
    have hfl : ⌊s / 60⌋ = 0 := by
      rw [Int.floor_eq_zero_iff]
      constructor
      · exact hdiv0
      · rw [div_lt_one (by norm_num : (0:ℚ) < 60)]; exact hs
    have htr : ratTrunc (s / 60) = 0 := by rw [ratTrunc, if_pos hdiv0, hfl]
    have hrem : jsRem s 60 = s := by rw [jsRem, htr]; push_cast; ring
    rw [formatCallDuration]
    simp only [hrem, hfl]
    norm_num
  refine ⟨hfold, hhigh, hlow, ?_, ?_⟩
  · exact hfold callExampleParts 42 (by decide) (by decide) (by decide)
  · rw [hlow 42 (by norm_num) (by norm_num), show ⌊(42:ℚ)⌋ = 42 by norm_num]
    rfl

/-- Claim C7 witness: the general parts of the claim applied at the
concrete example (maximum of 5/42/17 is 42; 42 s formats to `"42s"`;
125 s formats to `"2m 5s"`). -/
theorem claim_C7_witness :
    ((42:ℚ) ∈ partDurations callExampleParts ∧ (0:ℚ) < 42 ∧
      (60:ℚ) ≤ 125 ∧ (0:ℚ) ≤ 42 ∧ (42:ℚ) < 60) ∧
    (extractCallDetails callExampleParts).2 = some 42 ∧
    formatCallDuration 42 = "42s" ∧
    formatCallDuration 125 = "2m 5s" := by
  refine ⟨⟨by decide, by decide, by norm_num, by norm_num, by norm_num⟩, ?_, ?_, ?_⟩
  · exact claim_C7.1 callExampleParts 42 (by decide) (by decide) (by decide)
  · rw [claim_C7.2.2.1 42 (by norm_num) (by norm_num),
      show ⌊(42:ℚ)⌋ = 42 by norm_num]
    rfl
  · rw [claim_C7.2.1 125 (by norm_num),
      show ⌊(125:ℚ) / 60⌋ = 2 by norm_num,
      show ⌊(125:ℚ)⌋ = 125 by norm_num]
    rfl

/-- Claim C10: when no segment carries a strictly positive duration
(including exact zeros), the extracted maximum duration is `null` and the
`"ended"` call text has no duration segment at all. -/
theorem claim_C10 (parts : List CallPart) (c : Ctx)
    (h : ∀ p ∈ parts, ∀ d : ℚ, p.duration = some d → d ≤ 0) :
    (extractCallDetails parts).2 = none ∧
    parseCallEvent (some "ended") parts c =
      (if callParticipantsText parts c ≠ "" then
        "Call ended • " ++ callParticipantsText parts c
       else "Call ended") := by
  have hdur : ∀ x ∈ partDurations parts, x ≤ 0 := by
    intro x hx
    obtain ⟨p, hp, hpd⟩ := List.mem_filterMap.mp hx
    exact h p hp x hpd
  have hnone : (extractCallDetails parts).2 = none := by
    rw [extractCallDetails]
    simp only [extractCallLoop_snd, foldl_max_const _ 0 hdur]
    norm_num
  refine ⟨hnone, ?_⟩
  rw [parseCallEvent]
  have hl : jsToLower "ended" = "ended" := rfl
  simp only [hnone, Option.map_some', Option.map_none', hl]
  simp +decide

/-- A single part segment with a zero duration. -/
def zeroDurationParts : List CallPart := [⟨"8:alice", "", some 0⟩]

/-- Claim C10 witness: a call whose only segment lasted exactly 0 s reports
no duration and renders as `"Call ended • alice"` (no `"0s"`). -/
theorem claim_C10_witness :
    (∀ p ∈ zeroDurationParts, ∀ d : ℚ, p.duration = some d → d ≤ 0) ∧
    ((extractCallDetails zeroDurationParts).2 = none ∧
      parseCallEvent (some "ended") zeroDurationParts ⟨"8:me", false, false⟩ =
        "Call ended • alice") := by
  have hh : ∀ p ∈ zeroDurationParts, ∀ d : ℚ, p.duration = some d → d ≤ 0 := by
    intro p hp d hd
    have hp2 : p = (⟨"8:alice", "", some 0⟩ : CallPart) := by
      simpa [zeroDurationParts] using hp
    subst hp2
    exact le_of_eq (Option.some.inj hd).symm
  have hc := claim_C10 zeroDurationParts ⟨"8:me", false, false⟩ hh
  refine ⟨hh, hc.1, ?_⟩
  rw [hc.2]
  decide

/-! ## Claim C6 (system messages carry no identity) — confirmed

Every System-kind message (the ThreadActivity and
InviteFreeRelationshipChanged paths) goes through `handleSystemMessage`,
which forces `displayName = null` and `isOwner = false`. -/

/-- Every message `handleTranslation` emits is of text kind. -/
theorem handleTranslation_type (P : Platform) (c : Ctx) (m : Message)
    (next : Option Message) (skip : List String) (pm : ProcessedMessage)
    (skip2 : List String)
    (hp : handleTranslation P c m next skip = (some pm, skip2)) :
    pm.type = .text := by
  rcases next with _ | n
  · simp only [handleTranslation, Prod.mk.injEq] at hp
    obtain ⟨h1, -⟩ := hp
    obtain rfl := Option.some.inj h1
    rfl
  · by_cases hc : m.fromId = c.userId ∧ n.messagetype = "RichText"
    · simp only [handleTranslation, if_pos hc, Prod.mk.injEq] at hp
      obtain ⟨h1, -⟩ := hp
      obtain rfl := Option.some.inj h1
      rfl
    · simp only [handleTranslation, if_neg hc, Prod.mk.injEq] at hp
      obtain ⟨h1, -⟩ := hp
      obtain rfl := Option.some.inj h1
      rfl

/-- `handleMediaMessage` never emits a system-kind message. -/
theorem handleMediaMessage_type (P : Platform) (c : Ctx) (m : Message) :
    (handleMediaMessage P c m).type ≠ .system := by
  rw [handleMediaMessage]
  by_cases hm : ((P.extractMediaIdFn m.content).isSome && c.hasMediaFiles) = true
  · simp [hm, createBaseMessage]
  · simp [hm, createBaseMessage]

/-- Any emitted message of system kind has no display name and no
ownership, whatever the sender, viewer or perspective. -/
theorem processMessage_system_fields (P : Platform) (c : Ctx) (m : Message)
    (next : Option Message) (skip : List String) (pm : ProcessedMessage)
    (skip2 : List String)
    (hp : processMessage P c m next skip = (some pm, skip2))
    (hty : pm.type = .system) :
    pm.displayName = none ∧ pm.isOwner = false := by
  rw [processMessage] at hp
  by_cases h1 : skip.contains m.id = true
  · rw [if_pos h1] at hp
    exact absurd hp (by simp)
  rw [if_neg h1] at hp
  by_cases h2 : m.messagetype = "RichText/Media_Album"
  · rw [if_pos h2] at hp
    exact absurd hp (by simp)
  rw [if_neg h2] at hp
  by_cases h3 : m.messagetype = "Translation"
  · rw [if_pos h3] at hp
    have ht := handleTranslation_type P c m next skip pm skip2 hp
    exact absurd (ht.symm.trans hty) (by decide)
  rw [if_neg h3] at hp
  by_cases h4 : m.messagetype = "RichText/UriObject" ∨
      m.messagetype = "RichText/Media_Video"
  · rw [if_pos h4] at hp
    simp only [Prod.mk.injEq] at hp
    obtain ⟨hSome, -⟩ := hp
    obtain rfl := Option.some.inj hSome
    exact absurd hty (handleMediaMessage_type P c m)
  rw [if_neg h4] at hp
  by_cases h5 : m.messagetype = "RichText/Media_GenericFile"
  · rw [if_pos h5] at hp
    simp only [Prod.mk.injEq] at hp
    obtain ⟨hSome, -⟩ := hp
    obtain rfl := Option.some.inj hSome
    exact absurd hty (by simp [createBaseMessage])
  rw [if_neg h5] at hp
  by_cases h6 : m.messagetype = "RichText"
  · rw [if_pos h6] at hp
    simp only [Prod.mk.injEq] at hp
    obtain ⟨hSome, -⟩ := hp
    obtain rfl := Option.some.inj hSome
    exact absurd hty (by simp [createBaseMessage])
  rw [if_neg h6] at hp
  by_cases h7 : jsStartsWith m.messagetype "ThreadActivity" = true
  · rw [if_pos h7] at hp
    rcases hpt : parseThreadActivity m with _ | sc
    · simp only [hpt] at hp
      exact absurd hp (by simp)
    · simp only [hpt, Prod.mk.injEq] at hp
      obtain ⟨hSome, -⟩ := hp
      obtain rfl := Option.some.inj hSome
      exact ⟨rfl, rfl⟩
  rw [if_neg h7] at hp
  by_cases h8 : jsStartsWith m.messagetype "Event/Call" = true
  · rw [if_pos h8] at hp
    simp only [Prod.mk.injEq] at hp
    obtain ⟨hSome, -⟩ := hp
    obtain rfl := Option.some.inj hSome
    exact absurd hty (by simp [createBaseMessage])
  rw [if_neg h8] at hp
  by_cases h9 : m.messagetype = "Notice"
  · rw [if_pos h9] at hp
    simp only [Prod.mk.injEq] at hp
    obtain ⟨hSome, -⟩ := hp
    obtain rfl := Option.some.inj hSome
    exact absurd hty (by simp [handleSystemMessage, createBaseMessage])
  rw [if_neg h9] at hp
  by_cases h10 : m.messagetype = "PopCard"
  · rw [if_pos h10] at hp
    simp only [Prod.mk.injEq] at hp
    obtain ⟨hSome, -⟩ := hp
    obtain rfl := Option.some.inj hSome
    exact absurd hty (by simp [handleSystemMessage, createBaseMessage])
  rw [if_neg h10] at hp
  by_cases h11 : jsStartsWith m.messagetype "InviteFreeRelationshipChanged" = true
  · rw [if_pos h11] at hp
    simp only [Prod.mk.injEq] at hp
    obtain ⟨hSome, -⟩ := hp
    obtain rfl := Option.some.inj hSome
    exact ⟨rfl, rfl⟩
  rw [if_neg h11] at hp
  by_cases h12 : m.messagetype = "Text"
  · rw [if_pos h12] at hp
    simp only [Prod.mk.injEq] at hp
    obtain ⟨hSome, -⟩ := hp
    obtain rfl := Option.some.inj hSome
    exact absurd hty (by simp [createBaseMessage])
  rw [if_neg h12] at hp
  simp only [Prod.mk.injEq] at hp
  obtain ⟨hSome, -⟩ := hp
  obtain rfl := Option.some.inj hSome
  exact absurd hty (by simp [createBaseMessage])

/-- Membership version over the loop. -/
theorem processAux_system (P : Platform) (c : Ctx) :
    ∀ (msgs : List Message) (budget : Nat) (skip : List String)
      (pm : ProcessedMessage), pm ∈ processAux P c budget msgs skip →
      pm.type = .system → pm.displayName = none ∧ pm.isOwner = false := by
  intro msgs
  induction msgs with
  | nil =>
    intro budget skip pm hmem
    cases budget <;> simp [processAux] at hmem
  | cons m rest ih =>
    intro budget skip pm hmem hty
    cases budget with
    | zero => simp [processAux] at hmem
    | succ b =>
      rw [processAux] at hmem
      by_cases hskip : skip.contains m.id
      · rw [if_pos hskip] at hmem
        exact ih b skip pm hmem hty
      · rw [if_neg hskip] at hmem
        rcases hE : processMessage P c m rest.head? skip with ⟨res, skip2⟩
        rcases res with _ | pm2
        · rw [hE] at hmem
          exact ih b skip2 pm hmem hty
        · rw [hE] at hmem
          rcases List.mem_cons.mp hmem with rfl | hmem2
          · exact processMessage_system_fields P c m rest.head? skip pm skip2 hE hty
          · exact ih b skip2 pm hmem2 hty

/-- Claim C6: every NormalizedMessage emitted with System kind has
`displayName = null` and `isOwner = false`, for every sender, viewer id and
perspective flag. -/
theorem claim_C6 (P : Platform) (c : Ctx) (messages : List Message)
    (mm : Option Nat) :
    ∀ pm ∈ processMessages P c messages mm, pm.type = .system →
      pm.displayName = none ∧ pm.isOwner = false := by
  intro pm hmem hty
  exact processAux_system P c messages _ [] pm hmem hty

/-- A concrete system-path record. -/
def inviteMsg : Message :=
  { id := "i1", displayName := some "Alice", originalarrivaltime := "t0",
    messagetype := "InviteFreeRelationshipChanged/Initialized",
    content := "hello", conversationid := "c1", fromId := "8:alice" }

/-- The viewer context used in concrete pipeline witnesses; note the sender
of `inviteMsg` IS the viewer, so a non-system message would get
`isOwner = true`. -/
def ctxW : Ctx := { userId := "8:alice", swapRoles := false, hasMediaFiles := false }

/-- Claim C6 witness: a concrete InviteFreeRelationshipChanged record sent
by the viewer is emitted as a system message with `displayName = none` and
`isOwner = false`. -/
theorem claim_C6_witness :
    (handleSystemMessage inviteMsg ctxW "hello" MsgType.system ∈
        processMessages idPlatform ctxW [inviteMsg] none ∧
      (handleSystemMessage inviteMsg ctxW "hello" MsgType.system).type = .system) ∧
    ((handleSystemMessage inviteMsg ctxW "hello" MsgType.system).displayName = none ∧
      (handleSystemMessage inviteMsg ctxW "hello" MsgType.system).isOwner = false) :=
  ⟨⟨by decide, rfl⟩,
    claim_C6 idPlatform ctxW [inviteMsg] none
      (handleSystemMessage inviteMsg ctxW "hello" MsgType.system) (by decide) rfl⟩

/-! ## Claim C2 (translation pairing) — confirmed

A `Translation` record from the viewer followed by a `RichText` record
yields exactly one message for the pair: identity fields from the RichText
record, sender forced to the Translation sender, content the RichText
content through the full parse path; the RichText id goes into `skipIds`
and its own iteration is skipped. -/

/-- Claim C2: processing `Translation(from = viewer) :: RichText :: post`
emits one message for the pair — id/timestamp/displayName from the RichText
record, sender from the Translation record, content the sanitized RichText
content — and continues on `post` with the RichText id in `skipIds`, so the
RichText record is never independently emitted in the pass. -/
theorem claim_C2 (P : Platform) (c : Ctx) (t r : Message) (post : List Message)
    (h1 : t.messagetype = "Translation") (h2 : t.fromId = c.userId)
    (h3 : r.messagetype = "RichText") :
    processMessages P c (t :: r :: post) none =
      createBaseMessage { r with fromId := t.fromId } c
          (parseMessageContent P r.content) .text ::
        processAux P c post.length post [r.id] ∧
    (createBaseMessage { r with fromId := t.fromId } c
        (parseMessageContent P r.content) .text).id = r.id ∧
    (createBaseMessage { r with fromId := t.fromId } c
        (parseMessageContent P r.content) .text).timestamp =
      r.originalarrivaltime ∧
    (createBaseMessage { r with fromId := t.fromId } c
        (parseMessageContent P r.content) .text).displayName =
      cleanDisplayName r.displayName ∧
    (createBaseMessage { r with fromId := t.fromId } c
        (parseMessageContent P r.content) .text).fromId = t.fromId ∧
    (createBaseMessage { r with fromId := t.fromId } c
        (parseMessageContent P r.content) .text).content =
      parseMessageContent P r.content := by
  refine ⟨?_, rfl, rfl, rfl, rfl, rfl⟩
  have hpm : processMessage P c t (some r) [] =
      (some (createBaseMessage { r with fromId := t.fromId } c
        (parseMessageContent P r.content) .text), [r.id]) := by
    rw [processMessage]
    rw [if_neg (show ¬(([] : List String).contains t.id = true) by simp)]
    rw [if_neg (show ¬(t.messagetype = "RichText/Media_Album") by
      rw [h1]; decide)]
    rw [if_pos h1]
    simp only [handleTranslation]
    rw [if_pos ⟨h2, h3⟩]
  rw [processMessages]
  show processAux P c (t :: r :: post).length (t :: r :: post) [] = _
  rw [List.length_cons, List.length_cons, processAux]
  rw [if_neg (show ¬(([] : List String).contains t.id = true) by simp)]
  simp only [List.head?_cons, hpm]
  rw [processAux]
  rw [if_pos (show ([r.id] : List String).contains r.id = true by simp)]

/-- The Translation half of a concrete viewer-sent pair. -/
def translationMsg : Message :=
  { id := "t1", displayName := some "Alice", originalarrivaltime := "t0",
    messagetype := "Translation", content := "{}", conversationid := "c1",
    fromId := "8:alice" }

/-- The RichText half of the pair. -/
def richTextMsg : Message :=
  { id := "r1", displayName := some "8:alice", originalarrivaltime := "t1",
    messagetype := "RichText", content := "<b>hi</b>", conversationid := "c1",
    fromId := "8:alice" }

/-- Claim C2 witness: the concrete pair yields exactly one output message,
carrying the RichText identity and the sanitized RichText content. -/
theorem claim_C2_witness :
    (translationMsg.messagetype = "Translation" ∧
      translationMsg.fromId = ctxW.userId ∧
      richTextMsg.messagetype = "RichText") ∧
    processMessages idPlatform ctxW [translationMsg, richTextMsg] none =
      [createBaseMessage { richTextMsg with fromId := translationMsg.fromId }
        ctxW (parseMessageContent idPlatform richTextMsg.content) .text] := by
  refine ⟨⟨rfl, rfl, rfl⟩, ?_⟩
  have h := (claim_C2 idPlatform ctxW translationMsg richTextMsg [] rfl rfl rfl).1
  rw [h]
  rfl

/-! ## Claim C4 (length bound and order preservation) — confirmed

Each loop iteration emits at most one message, so the output is no longer
than the input; the instrumented pass shows each output comes from a
distinct source record and the emission order follows the source order. -/

/-- The loop emits at most one message per iteration. -/
theorem processAux_length (P : Platform) (c : Ctx) :
    ∀ (msgs : List Message) (budget : Nat) (skip : List String),
      (processAux P c budget msgs skip).length ≤ msgs.length := by
  intro msgs
  induction msgs with
  | nil =>
    intro budget skip
    cases budget <;> simp [processAux]
  | cons m rest ih =>
    intro budget skip
    cases budget with
    | zero => simp [processAux]
    | succ b =>
      rw [processAux]
      by_cases hskip : skip.contains m.id
      · rw [if_pos hskip]
        exact le_trans (ih b skip) (by simp)
      · rw [if_neg hskip]
        rcases hE : processMessage P c m rest.head? skip with ⟨res, skip2⟩
        rcases res with _ | pm
        · exact le_trans (ih b skip2) (by simp)
        · simpa using ih b skip2

/-- The instrumented pass carries the same messages as the plain pass. -/
theorem processAuxIdx_map_snd (P : Platform) (c : Ctx) :
    ∀ (msgs : List Message) (budget i : Nat) (skip : List String),
      (processAuxIdx P c i budget msgs skip).map Prod.snd =
        processAux P c budget msgs skip := by
  intro msgs
  induction msgs with
  | nil =>
    intro budget i skip
    cases budget <;> simp [processAux, processAuxIdx]
  | cons m rest ih =>
    intro budget i skip
    cases budget with
    | zero => simp [processAux, processAuxIdx]
    | succ b =>
      rw [processAux, processAuxIdx]
      by_cases hskip : skip.contains m.id
      · rw [if_pos hskip, if_pos hskip]
        exact ih b (i + 1) skip
      · rw [if_neg hskip, if_neg hskip]
        rcases hE : processMessage P c m rest.head? skip with ⟨res, skip2⟩
        rcases res with _ | pm
        · exact ih b (i + 1) skip2
        · simp only [List.map_cons]
          rw [ih b (i + 1) skip2]

/-- Every recorded source index is at least the starting index. -/
theorem processAuxIdx_le (P : Platform) (c : Ctx) :
    ∀ (msgs : List Message) (budget i : Nat) (skip : List String)
      (x : Nat × ProcessedMessage),
      x ∈ processAuxIdx P c i budget msgs skip → i ≤ x.1 := by
  intro msgs
  induction msgs with
  | nil =>
    intro budget i skip x hx
    cases budget <;> simp [processAuxIdx] at hx
  | cons m rest ih =>
    intro budget i skip x hx
    cases budget with
    | zero => simp [processAuxIdx] at hx
    | succ b =>
      rw [processAuxIdx] at hx
      by_cases hskip : skip.contains m.id
      · rw [if_pos hskip] at hx
        exact le_trans (by omega) (ih b (i + 1) skip x hx)
      · rw [if_neg hskip] at hx
        rcases hE : processMessage P c m rest.head? skip with ⟨res, skip2⟩
        rcases res with _ | pm
        · rw [hE] at hx
          exact le_trans (by omega) (ih b (i + 1) skip2 x hx)
        · rw [hE] at hx
          rcases List.mem_cons.mp hx with rfl | hx2
          · exact le_refl i
          · exact le_trans (by omega) (ih b (i + 1) skip2 x hx2)

/-- The recorded source indices are strictly increasing. -/
theorem processAuxIdx_sorted (P : Platform) (c : Ctx) :
    ∀ (msgs : List Message) (budget i : Nat) (skip : List String),
      ((processAuxIdx P c i budget msgs skip).map Prod.fst).Pairwise (· < ·) := by
  intro msgs
  induction msgs with
  | nil =>
    intro budget i skip
    cases budget <;> simp [processAuxIdx]
  | cons m rest ih =>
    intro budget i skip
    cases budget with
    | zero => simp [processAuxIdx]
    | succ b =>
      rw [processAuxIdx]
      by_cases hskip : skip.contains m.id
      · rw [if_pos hskip]
        exact ih b (i + 1) skip
      · rw [if_neg hskip]
        rcases hE : processMessage P c m rest.head? skip with ⟨res, skip2⟩
        rcases res with _ | pm
        · exact ih b (i + 1) skip2
        · simp only [List.map_cons, List.pairwise_cons]
          refine ⟨?_, ih b (i + 1) skip2⟩
          intro j hj
          obtain ⟨y, hy, rfl⟩ := List.mem_map.mp hj
          have := processAuxIdx_le P c rest b (i + 1) skip2 y hy
          omega

/-! ### Claim C8 groundwork: counting `<` characters -/

/-- Wrapping matched runs adds exactly two `<` per match: the original
characters are preserved and each wrapper contributes its `<mark` and
`</mark`. -/
theorem highlightText_count (q : List Char) (t : List Char) :
    (highlightText q t).count '<' = t.count '<' + 2 * countMatches q t := by
  rcases t with _ | ⟨c, rest⟩
  · simp [highlightText, countMatches]
  by_cases hq : q = []
  · rw [highlightText, countMatches, if_pos hq, if_pos hq]
    simp
  by_cases hm : matchesAt q (c :: rest) = true
  · rw [highlightText, countMatches, if_neg hq, if_neg hq, if_pos hm, if_pos hm]
    have ih := highlightText_count q ((c :: rest).drop q.length)
    have hsplit : (c :: rest).count '<' =
        ((c :: rest).take q.length).count '<' +
          ((c :: rest).drop q.length).count '<' := by
      rw [← List.count_append, List.take_append_drop]
    have hmo : markOpen.count '<' = 1 := by decide
    have hmc : markClose.count '<' = 1 := by decide
    simp only [List.count_append, hmo, hmc, ih, hsplit]
    ring
  · rw [highlightText, countMatches, if_neg hq, if_neg hq, if_neg hm, if_neg hm]
    have ih := highlightText_count q rest
    simp only [List.count_cons, ih]
    ring
termination_by t.length
decreasing_by
  · have hql : 0 < q.length := List.length_pos.mpr hq
    simp only [List.length_drop, List.length_cons]
    omega
  · simp

/-- The state-machine output's `<` count: pending plus remaining input plus
two per inserted wrapper. -/
theorem hlScan_count (q : List Char) :
    ∀ (l pending : List Char) (inTag : Bool),
      (hlScan q pending inTag l).count '<' =
        pending.count '<' + l.count '<' + 2 * hlScanCount q pending inTag l := by
  intro l
  induction l with
  | nil =>
    intro pending inTag
    simp [hlScan, hlScanCount, highlightText_count]
  | cons ch rest ih =>
    intro pending inTag
    rw [hlScan, hlScanCount]
    by_cases h1 : ch = '<'
    · rw [if_pos h1, if_pos h1]
      subst h1
      simp only [List.count_append, highlightText_count, ih ['<'] true,
        List.count_cons]
      simp
      ring
    · rw [if_neg h1, if_neg h1]
      by_cases h2 : ch = '>' ∧ inTag = true
      · rw [if_pos h2, if_pos h2]
        obtain ⟨rfl, -⟩ := h2
        simp only [List.count_append, ih [] false, List.count_cons]
        simp
        ring
      · rw [if_neg h2, if_neg h2]
        rw [ih (pending ++ [ch]) inTag]
        simp only [List.count_append, List.count_cons]
        simp [List.count_singleton, h1, List.count_cons]

/-! ### Claim C8 groundwork: generic scanning lemmas -/

/-- Take-while over an append whose left part satisfies the predicate and
whose right part starts with a failing character. -/
theorem takeWhile_append_head_not (p : Char → Bool) (a b : List Char)
    (ha : ∀ ch ∈ a, p ch = true)
    (hb : ∀ c : Char, b.head? = some c → p c = false) :
    (a ++ b).takeWhile p = a := by
  induction a with
  | nil =>
    cases b with
    | nil => rfl
    | cons c rest => simp [List.takeWhile_cons, hb c rfl]
  | cons c rest ih =>
    simp only [List.cons_append, List.takeWhile_cons, ha c (by simp)]
    simp only [if_true]
    exact congrArg (c :: ·) (ih (fun ch hch => ha ch (List.mem_cons_of_mem _ hch)))

/-- A list every element of which satisfies the predicate is its own
take-while. -/
theorem takeWhile_eq_self_of_all (p : Char → Bool) (l : List Char)
    (h : ∀ ch ∈ l, p ch = true) : l.takeWhile p = l := by
  induction l with
  | nil => rfl
  | cons c rest ih =>
    simp only [List.takeWhile_cons, h c (by simp), if_true]
    exact congrArg (c :: ·) (ih (fun ch hch => h ch (List.mem_cons_of_mem _ hch)))

/-- Conversely, a list equal to its own take-while satisfies the predicate
everywhere. -/
theorem all_of_takeWhile_eq_self (p : Char → Bool) (l : List Char)
    (h : l.takeWhile p = l) : ∀ ch ∈ l, p ch = true := by
  induction l with
  | nil => intro ch hch; simp at hch
  | cons c rest ih =>
    intro ch hch
    rw [List.takeWhile_cons] at h
    by_cases hp : p c = true
    · rw [if_pos hp] at h
      have h2 : rest.takeWhile p = rest := by
        injection h
      rcases List.mem_cons.mp hch with rfl | hch2
      · exact hp
      · exact ih h2 ch hch2
    · rw [if_neg hp] at h
      exact absurd h.symm (List.cons_ne_nil c rest)

/-- An empty take-while means an empty list or a failing head. -/
theorem takeWhile_eq_nil_cases (p : Char → Bool) (l : List Char)
    (h : l.takeWhile p = []) :
    l = [] ∨ ∃ c t, l = c :: t ∧ p c = false := by
  cases l with
  | nil => exact Or.inl rfl
  | cons c rest =>
    right
    refine ⟨c, rest, rfl, ?_⟩
    by_contra hp
    have hp2 : p c = true := by
      revert hp
      cases p c <;> simp
    rw [List.takeWhile_cons, if_pos hp2] at h
    exact absurd h (List.cons_ne_nil _ _)

/-- Dropping past the take-while prefix is drop-while. -/
theorem drop_takeWhile_length (p : Char → Bool) (l : List Char) :
    l.drop (l.takeWhile p).length = l.dropWhile p := by
  induction l with
  | nil => rfl
  | cons c rest ih =>
    rw [List.takeWhile_cons, List.dropWhile_cons]
    by_cases hp : p c = true
    · rw [if_pos hp, if_pos hp]
      simpa using ih
    · rw [if_neg hp, if_neg hp]
      rfl

/-- The head surviving a drop-while fails the predicate. -/
theorem dropWhile_head_false (p : Char → Bool) (l : List Char) :
    ∀ c : Char, (l.dropWhile p).head? = some c → p c = false := by
  induction l with
  | nil => intro c hc; simp at hc
  | cons d rest ih =>
    intro c hc
    rw [List.dropWhile_cons] at hc
    by_cases hp : p d = true
    · rw [if_pos hp] at hc
      exact ih c hc
    · rw [if_neg hp] at hc
      simp only [List.head?_cons, Option.some.injEq] at hc
      subst hc
      simpa using hp

/-- Drop-while passes over an all-satisfying left part. -/
theorem dropWhile_append_of_all (p : Char → Bool) (a b : List Char)
    (ha : ∀ ch ∈ a, p ch = true) :
    (a ++ b).dropWhile p = b.dropWhile p := by
  induction a with
  | nil => rfl
  | cons c rest ih =>
    simp only [List.cons_append, List.dropWhile_cons, ha c (by simp), if_true]
    exact ih (fun ch hch => ha ch (List.mem_cons_of_mem _ hch))

/-- Take-while is blind past a failing element of the left part. -/
theorem takeWhile_append_of_ne (p : Char → Bool) (a b : List Char)
    (ha : a.takeWhile p ≠ a) :
    (a ++ b).takeWhile p = a.takeWhile p := by
  induction a with
  | nil => exact absurd rfl ha
  | cons c rest ih =>
    by_cases hp : p c = true
    · simp only [List.cons_append, List.takeWhile_cons, hp, if_true]
      have hne : rest.takeWhile p ≠ rest := by
        intro hEq
        exact ha (by rw [List.takeWhile_cons, if_pos hp, hEq])
      exact congrArg (c :: ·) (ih hne)
    · simp only [List.cons_append, List.takeWhile_cons, if_neg hp]

/-- A ragged take-while is strictly shorter than the list. -/
theorem takeWhile_length_lt_of_ne (p : Char → Bool) (l : List Char)
    (h : l.takeWhile p ≠ l) : (l.takeWhile p).length < l.length := by
  have hle : (l.takeWhile p).length ≤ l.length := (List.takeWhile_prefix _).length_le
  rcases lt_or_eq_of_le hle with hlt | hEq
  · exact hlt
  · exact absurd (List.IsPrefix.eq_of_length (List.takeWhile_prefix _) hEq) h

/-- Dropping at most the left part of an append. -/
theorem drop_append_le (n : Nat) (a b : List Char) (h : n ≤ a.length) :
    (a ++ b).drop n = a.drop n ++ b := by
  induction a generalizing n with
  | nil =>
    simp at h
    subst h
    rfl
  | cons c rest ih =>
    cases n with
    | zero => rfl
    | succ k =>
      simp only [List.cons_append, List.drop_succ_cons]
      exact ih k (by simpa using h)

/-- The head of an append with a nonempty left part. -/
theorem head?_append_left (a b : List Char) (ha : a ≠ []) :
    (a ++ b).head? = a.head? := by
  cases a with
  | nil => exact absurd rfl ha
  | cons c rest => rfl

/-! ### Claim C8 groundwork: tag extraction -/

/-- The base equation of the tag scan. -/
theorem extractTags_nil : extractTags [] = [] := by
  rw [extractTags]

/-- A non-`<` head never starts a tag. -/
theorem extractTags_cons_of_ne (c : Char) (x : List Char) (hc : c ≠ '<') :
    extractTags (c :: x) = extractTags x := by
  rw [extractTags, if_neg hc]

/-- A `<` whose follower region starts with a special character (or is
empty) starts no tag. -/
theorem extractTags_lt_cons_special (Z : List Char)
    (h : Z.takeWhile isTextChar = []) :
    extractTags ('<' :: Z) = extractTags Z := by
  rw [extractTags, if_pos rfl]
  simp only [h, ne_eq, not_true_eq_false, false_and, if_false]

/-- A complete well-formed tag extracts as itself, and the scan resumes
after it. -/
theorem extractTags_tag_append (body x : List Char) (hb : body ≠ [])
    (hspec : ∀ ch ∈ body, isTextChar ch = true) :
    extractTags ('<' :: (body ++ '>' :: x)) =
      ('<' :: body ++ ['>']) :: extractTags x := by
  rw [extractTags, if_pos rfl]
  have hpre : (body ++ '>' :: x).takeWhile isTextChar = body :=
    takeWhile_append_head_not _ body ('>' :: x) hspec
      (fun d hd => by
        simp only [List.head?_cons, Option.some.injEq] at hd
        subst hd
        decide)
  simp only [hpre, List.drop_left, List.head?_cons, List.drop_succ_cons,
    List.drop_zero, Option.some.injEq]
  rw [if_pos ⟨hb, trivial⟩]

/-! ### Claim C8 groundwork: the well-formed-tag-free predicate -/

/-- A character failing `notGt` is `>`. -/
theorem eq_gt_of_notGt_false (c : Char) (h : notGt c = false) : c = '>' := by
  by_contra hc
  simp [notGt, hc] at h

/-- A character failing `isTextChar` is `<` or `>`. -/
theorem special_of_isTextChar_false (c : Char) (h : isTextChar c = false) :
    c = '<' ∨ c = '>' := by
  by_cases h1 : c = '<'
  · exact Or.inl h1
  · by_cases h2 : c = '>'
    · exact Or.inr h2
    · simp [isTextChar, h1, h2] at h

/-- Prefixes keep the well-formed-tag-free property. -/
theorem noTagIn_take (t : List Char) (h : NoTagIn t) :
    ∀ n : Nat, NoTagIn (t.take n) := by
  induction t with
  | nil =>
    intro n
    simp only [List.take_nil]
    trivial
  | cons c rest ih =>
    intro n
    cases n with
    | zero => trivial
    | succ k =>
      refine ⟨?_, ih h.2 k⟩
      intro hc
      rcases h.1 hc with h0 | h0
      · left
        rcases takeWhile_eq_nil_cases _ _ h0 with rfl | ⟨d, t2, hEq, hd⟩
        · simp
        · subst hEq
          cases k with
          | zero => simp
          | succ k2 => simp [List.takeWhile_cons, hd]
      · right
        exact takeWhile_eq_self_of_all _ _ (fun ch hch =>
          all_of_takeWhile_eq_self _ _ h0 ch (List.mem_of_mem_take hch))

/-- Suffixes keep the well-formed-tag-free property. -/
theorem noTagIn_drop (t : List Char) (h : NoTagIn t) :
    ∀ n : Nat, NoTagIn (t.drop n) := by
  induction t with
  | nil =>
    intro n
    simp only [List.drop_nil]
    trivial
  | cons c rest ih =>
    intro n
    cases n with
    | zero => exact h
    | succ k => exact ih h.2 k

/-- A well-formed-tag-free string extracts no tags. -/
theorem extractTags_eq_nil_of_noTagIn (t : List Char) (h : NoTagIn t) :
    extractTags t = [] := by
  induction t with
  | nil => exact extractTags_nil
  | cons c rest ih =>
    by_cases hc : c = '<'
    · subst hc
      rcases h.1 rfl with h0 | h0
      · have hpre : rest.takeWhile isTextChar = [] := by
          rcases takeWhile_eq_nil_cases _ _ h0 with rfl | ⟨d, t2, hEq, hd⟩
          · rfl
          · subst hEq
            have hdgt : d = '>' := eq_gt_of_notGt_false d hd
            simp [List.takeWhile_cons, isTextChar, hdgt]
        rw [extractTags_lt_cons_special rest hpre]
        exact ih h.2
      · rw [extractTags, if_pos rfl]
        have hall : ∀ ch ∈ rest, notGt ch = true :=
          all_of_takeWhile_eq_self _ _ h0
        have hhead : ¬ ((rest.drop (rest.takeWhile isTextChar).length).head? =
            some '>') := by
          intro hh
          rw [drop_takeWhile_length] at hh
          have hfalse := dropWhile_head_false isTextChar rest '>' hh
          have hmem : '>' ∈ rest := by
            rcases hEq : rest.dropWhile isTextChar with _ | ⟨d, t2⟩
            · rw [hEq] at hh
              simp at hh
            · rw [hEq] at hh
              simp only [List.head?_cons, Option.some.injEq] at hh
              subst hh
              exact (List.dropWhile_sublist isTextChar).subset
                (by rw [hEq]; exact List.mem_cons_self _ _)
          have := hall '>' hmem
          simp [notGt] at this
        rw [if_neg (fun hcond => hhead hcond.2)]
        exact ih h.2
    · rw [extractTags_cons_of_ne c rest hc]
      exact ih h.2

/-- Scanning a well-formed-tag-free left part finds nothing, also when the
continuation starts at a fresh `<` (or is empty). -/
theorem extractTags_noTagIn_append (a : List Char) :
    ∀ X : List Char, NoTagIn a → (X = [] ∨ X.head? = some '<') →
      extractTags (a ++ X) = extractTags X := by
  induction a with
  | nil => intro X _ _; rfl
  | cons c r ih =>
    intro X ha hX
    by_cases hc : c = '<'
    · subst hc
      simp only [List.cons_append]
      rcases ha.1 rfl with h0 | h0
      · rcases takeWhile_eq_nil_cases _ _ h0 with rfl | ⟨d, t2, hEq, hd⟩
        · have hXpre : X.takeWhile isTextChar = [] := by
            rcases hX with rfl | hX
            · rfl
            · rcases X with _ | ⟨x0, xr⟩
              · rfl
              · simp only [List.head?_cons, Option.some.injEq] at hX
                subst hX
                simp [List.takeWhile_cons, isTextChar]
          simp only [List.nil_append]
          rw [extractTags_lt_cons_special X hXpre]
        · subst hEq
          have hdgt : d = '>' := eq_gt_of_notGt_false d hd
          subst hdgt
          have hpre : (('>' :: t2) ++ X).takeWhile isTextChar = [] := by
            simp [List.takeWhile_cons, isTextChar]
          rw [extractTags_lt_cons_special _ hpre]
          exact ih X ha.2 hX
      · have hall : ∀ ch ∈ r, notGt ch = true :=
          all_of_takeWhile_eq_self _ _ h0
        rw [extractTags, if_pos rfl]
        have hhead : ¬ (((r ++ X).drop
            ((r ++ X).takeWhile isTextChar).length).head? = some '>') := by
          intro hh
          rw [drop_takeWhile_length] at hh
          by_cases hallText : ∀ ch ∈ r, isTextChar ch = true
          · rw [dropWhile_append_of_all _ r X hallText] at hh
            rcases hX with rfl | hX
            · simp at hh
            · rcases X with _ | ⟨x0, xr⟩
              · simp at hh
              · simp only [List.head?_cons, Option.some.injEq] at hX
                subst hX
                rw [List.dropWhile_cons, if_neg (by simp [isTextChar])] at hh
                simp at hh
          · push_neg at hallText
            obtain ⟨e, he, hef⟩ := hallText
            have hne : r.takeWhile isTextChar ≠ r := by
              intro hEq
              have := all_of_takeWhile_eq_self _ _ hEq e he
              rw [this] at hef
              exact absurd hef (by simp)
            have hdw : (r ++ X).dropWhile isTextChar =
                r.dropWhile isTextChar ++ X := by
              rw [← drop_takeWhile_length, ← drop_takeWhile_length,
                takeWhile_append_of_ne _ _ _ hne]
              exact drop_append_le _ r X
                (le_of_lt (takeWhile_length_lt_of_ne _ _ hne))
            rw [hdw] at hh
            have hrne : r.dropWhile isTextChar ≠ [] := by
              intro hnil
              have hlen := takeWhile_length_lt_of_ne isTextChar r hne
              rw [← drop_takeWhile_length] at hnil
              rw [List.drop_eq_nil_iff] at hnil
              omega
            rw [head?_append_left _ _ hrne] at hh
            have hfalse := dropWhile_head_false isTextChar r '>' hh
            have hmem : '>' ∈ r := by
              rcases hEq : r.dropWhile isTextChar with _ | ⟨d2, t3⟩
              · exact absurd hEq hrne
              · rw [hEq] at hh
                simp only [List.head?_cons, Option.some.injEq] at hh
                subst hh
                exact (List.dropWhile_sublist isTextChar).subset
                  (by rw [hEq]; exact List.mem_cons_self _ _)
            have := hall '>' hmem
            simp [notGt] at this
        rw [if_neg (fun hcond => hhead hcond.2)]
        exact ih X ha.2 hX
    · simp only [List.cons_append]
      rw [extractTags_cons_of_ne c _ hc]
      exact ih X ha.2 hX

/-- Tag extraction splits over an append whose right part is empty or
starts at a fresh `<`: no tag spans the boundary. -/
theorem extractTags_append (A X : List Char)
    (hX : X = [] ∨ X.head? = some '<') :
    extractTags (A ++ X) = extractTags A ++ extractTags X := by
  rcases A with _ | ⟨c, r⟩
  · simp [extractTags_nil]
  by_cases hc : c = '<'
  · subst hc
    simp only [List.cons_append]
    by_cases hall : ∀ ch ∈ r, isTextChar ch = true
    · have hpreA : r.takeWhile isTextChar = r := takeWhile_eq_self_of_all _ _ hall
      have hpreAX : (r ++ X).takeWhile isTextChar = r := by
        rcases hX with rfl | hX2
        · rw [List.append_nil, hpreA]
        · refine takeWhile_append_head_not _ r X hall (fun d hd => ?_)
          rw [hX2] at hd
          simp only [Option.some.injEq] at hd
          subst hd
          decide
      have hcondX : ¬ (r ≠ [] ∧ ((r ++ X).drop r.length).head? = some '>') := by
        rw [drop_append_le _ r X le_rfl, List.drop_length, List.nil_append]
        rintro ⟨-, hh⟩
        rcases hX with rfl | hX2
        · simp at hh
        · rw [hX2] at hh
          simp at hh
      rw [extractTags, if_pos rfl]
      simp only [hpreAX]
      rw [if_neg hcondX]
      rw [extractTags_append r X hX]
      have hAside : extractTags ('<' :: r) = extractTags r := by
        rw [extractTags, if_pos rfl]
        simp only [hpreA, List.drop_length]
        rw [if_neg (by simp)]
      rw [hAside]
    · push_neg at hall
      have hne : r.takeWhile isTextChar ≠ r := by
        intro hEq
        obtain ⟨e, he, hef⟩ := hall
        exact hef (all_of_takeWhile_eq_self _ _ hEq e he)
      have hlt := takeWhile_length_lt_of_ne isTextChar r hne
      have hpreAX : (r ++ X).takeWhile isTextChar = r.takeWhile isTextChar :=
        takeWhile_append_of_ne _ r X hne
      have hdropAX : (r ++ X).drop (r.takeWhile isTextChar).length =
          r.drop (r.takeWhile isTextChar).length ++ X :=
        drop_append_le _ r X (le_of_lt hlt)
      rcases hsd : r.drop (r.takeWhile isTextChar).length with _ | ⟨s, u⟩
      · have : r.length ≤ (r.takeWhile isTextChar).length := by
          rw [← List.drop_eq_nil_iff]
          exact hsd
        omega
      by_cases hs : s = '>'
      · subst hs
        by_cases hpe : r.takeWhile isTextChar = []
        · rw [extractTags, if_pos rfl]
          simp only [hpreAX, hpe]
          rw [if_neg (by simp)]
          rw [extractTags_append r X hX]
          have hAside : extractTags ('<' :: r) = extractTags r := by
            rw [extractTags, if_pos rfl]
            simp only [hpe]
            rw [if_neg (by simp)]
          rw [hAside]
        · rw [extractTags, if_pos rfl]
          simp only [hpreAX, hdropAX, hsd]
          rw [if_pos ⟨hpe, by rw [head?_append_left _ _ (by simp)]; rfl⟩]
          have hdrop1 : (('>' :: u) ++ X).drop 1 = u ++ X := by
            simp
          rw [hdrop1, extractTags_append u X hX]
          have hAside : extractTags ('<' :: r) =
              ('<' :: r.takeWhile isTextChar ++ ['>']) :: extractTags u := by
            rw [extractTags, if_pos rfl]
            simp only [hsd]
            rw [if_pos ⟨hpe, rfl⟩]
            simp
          rw [hAside]
          simp
      · rw [extractTags, if_pos rfl]
        simp only [hpreAX, hdropAX, hsd]
        rw [if_neg (by
          rintro ⟨-, hh⟩
          rw [head?_append_left _ _ (by simp)] at hh
          simp only [List.head?_cons, Option.some.injEq] at hh
          exact hs hh)]
        rw [extractTags_append r X hX]
        have hAside : extractTags ('<' :: r) = extractTags r := by
          rw [extractTags, if_pos rfl]
          simp only [hsd]
          rw [if_neg (by
            rintro ⟨-, hh⟩
            simp only [List.head?_cons, Option.some.injEq] at hh
            exact hs hh)]
        rw [hAside]
  · simp only [List.cons_append]
    rw [extractTags_cons_of_ne c _ hc, extractTags_cons_of_ne c r hc]
    exact extractTags_append r X hX
termination_by A.length
decreasing_by
  · simp
  · simp
  · have hlen := congrArg List.length hsd
    rw [List.length_drop] at hlen
    simp only [List.length_cons] at hlen ⊢
    omega
  · simp
  · simp

/-! ### Claim C8 groundwork: the highlighted text chunks -/

/-- A character failing `notLt` is `<`. -/
theorem eq_lt_of_notLt_false (c : Char) (h : notLt c = false) : c = '<' := by
  by_contra hc
  simp [notLt, hc] at h

/-- A take-while is empty when the head already fails. -/
theorem takeWhile_eq_nil_of_head (p : Char → Bool) (l : List Char) (c0 : Char)
    (h : l.head? = some c0) (hc : p c0 = false) : l.takeWhile p = [] := by
  cases l with
  | nil => simp at h
  | cons d rest =>
    simp only [List.head?_cons, Option.some.injEq] at h
    subst h
    rw [List.takeWhile_cons, if_neg (by simp [hc])]

/-- When no `>` hides in the `<`-free prefix, the text-character prefix and
the `<`-free prefix coincide. -/
theorem takeWhile_isText_eq_notLt (l : List Char)
    (h : ∀ ch ∈ l.takeWhile notLt, ch ≠ '>') :
    l.takeWhile isTextChar = l.takeWhile notLt := by
  induction l with
  | nil => rfl
  | cons c rest ih =>
    by_cases hc : c = '<'
    · subst hc
      rw [takeWhile_eq_nil_of_head isTextChar ('<' :: rest) '<' rfl (by decide),
        takeWhile_eq_nil_of_head notLt ('<' :: rest) '<' rfl (by decide)]
    · have hcin : c ∈ (c :: rest).takeWhile notLt := by
        rw [List.takeWhile_cons, if_pos (by simp [notLt, hc])]
        exact List.mem_cons_self _ _
      have hcgt : c ≠ '>' := h c hcin
      have htext : isTextChar c = true := by simp [isTextChar, hc, hcgt]
      have hnlt : notLt c = true := by simp [notLt, hc]
      rw [List.takeWhile_cons, List.takeWhile_cons, if_pos htext, if_pos hnlt]
      refine congrArg (c :: ·) (ih (fun ch hch => h ch ?_))
      rw [List.takeWhile_cons, if_pos hnlt]
      exact List.mem_cons_of_mem _ hch

/-- The opening wrapper decomposed as a well-formed tag. -/
def moBody : List Char :=
  "mark style=\"background-color: rgba(255, 255, 0, 0.4); padding: 2px 0;\"".toList

/-- The closing wrapper's body. -/
def mcBody : List Char := "/mark".toList

/-- The opening wrapper is `<`, its body, `>`. -/
theorem markOpen_eq : markOpen = '<' :: moBody ++ ['>'] := by decide

/-- The closing wrapper is `<`, its body, `>`. -/
theorem markClose_eq : markClose = '<' :: mcBody ++ ['>'] := by decide

/-- Extraction reads the opening wrapper off as one tag. -/
theorem extractTags_markOpen_append (z : List Char) :
    extractTags (markOpen ++ z) = markOpen :: extractTags z := by
  have h1 : markOpen ++ z = '<' :: (moBody ++ '>' :: z) := by
    rw [markOpen_eq]
    simp
  rw [h1, extractTags_tag_append moBody z (by decide) (by decide)]
  rw [markOpen_eq]

/-- Extraction reads the closing wrapper off as one tag. -/
theorem extractTags_markClose_append (z : List Char) :
    extractTags (markClose ++ z) = markClose :: extractTags z := by
  have h1 : markClose ++ z = '<' :: (mcBody ++ '>' :: z) := by
    rw [markClose_eq]
    simp
  rw [h1, extractTags_tag_append mcBody z (by decide) (by decide)]
  rw [markClose_eq]

/-- Highlighting never empties a nonempty chunk. -/
theorem highlightText_ne_nil (q t : List Char) (ht : t ≠ []) :
    highlightText q t ≠ [] := by
  rcases t with _ | ⟨c, rest⟩
  · exact absurd rfl ht
  rw [highlightText]
  by_cases hq : q = []
  · rw [if_pos hq]
    exact List.cons_ne_nil _ _
  by_cases hm : matchesAt q (c :: rest) = true
  · rw [if_neg hq, if_pos hm]
    rw [markOpen_eq]
    simp
  · rw [if_neg hq, if_neg hm]
    exact List.cons_ne_nil _ _

/-- Highlighting a chunk that opens at `<` produces output opening at `<`
(the chunk's own `<` or an inserted wrapper's). -/
theorem highlightText_head_lt (q t : List Char) (ht : t.head? = some '<') :
    (highlightText q t).head? = some '<' := by
  rcases t with _ | ⟨c, rest⟩
  · simp at ht
  simp only [List.head?_cons, Option.some.injEq] at ht
  subst ht
  rw [highlightText]
  by_cases hq : q = []
  · rw [if_pos hq]
    rfl
  by_cases hm : matchesAt q ('<' :: rest) = true
  · rw [if_neg hq, if_pos hm]
    rw [markOpen_eq]
    rfl
  · rw [if_neg hq, if_neg hm]
    rfl

/-- Highlighting a chunk that opens at a special character produces output
whose text-character prefix is empty. -/
theorem highlightText_head_special (q : List Char) (c0 : Char) (r2 : List Char)
    (hc0 : isTextChar c0 = false) :
    (highlightText q (c0 :: r2)).takeWhile isTextChar = [] := by
  rw [highlightText]
  by_cases hq : q = []
  · rw [if_pos hq]
    exact takeWhile_eq_nil_of_head _ _ c0 rfl hc0
  by_cases hm : matchesAt q (c0 :: r2) = true
  · rw [if_neg hq, if_pos hm]
    refine takeWhile_eq_nil_of_head _ _ '<' ?_ (by decide)
    rw [markOpen_eq]
    rfl
  · rw [if_neg hq, if_neg hm]
    exact takeWhile_eq_nil_of_head _ _ c0 rfl hc0

/-- In the output of a `>`-free chunk, no `>` precedes the first `<`: every
inserted `>` belongs to a wrapper, which opens with `<`. -/
theorem highlightText_firstSpecial (q : List Char) (t : List Char) :
    (∀ ch ∈ t, ch ≠ '>') →
      ∀ ch ∈ (highlightText q t).takeWhile notLt, ch ≠ '>' := by
  induction t with
  | nil =>
    intro _ ch hch
    rw [show highlightText q [] = [] from by rw [highlightText]] at hch
    simp at hch
  | cons c rest ih =>
    intro h
    by_cases hq : q = []
    · rw [highlightText, if_pos hq]
      intro ch hch
      exact h ch ((List.takeWhile_prefix notLt).sublist.subset hch)
    by_cases hm : matchesAt q (c :: rest) = true
    · rw [highlightText, if_neg hq, if_pos hm]
      intro ch hch
      rw [takeWhile_eq_nil_of_head notLt _ '<'
        (by rw [markOpen_eq]; rfl) (by decide)] at hch
      simp at hch
    · rw [highlightText, if_neg hq, if_neg hm]
      intro ch hch
      by_cases hc : c = '<'
      · rw [takeWhile_eq_nil_of_head notLt _ c (by rfl)
          (by simp [notLt, hc])] at hch
        simp at hch
      · rw [List.takeWhile_cons, if_pos (by simp [notLt, hc])] at hch
        rcases List.mem_cons.mp hch with rfl | hch2
        · exact h ch (List.mem_cons_self _ _)
        · exact ih (fun d hd => h d (List.mem_cons_of_mem _ hd)) ch hch2

/-- A `<` that never meets a `>` before the next `<` starts no tag. -/
theorem extractTags_lt_cons_of_head_ne (Z : List Char)
    (hh : (Z.drop (Z.takeWhile isTextChar).length).head? ≠ some '>') :
    extractTags ('<' :: Z) = extractTags Z := by
  rw [extractTags, if_pos rfl]
  simp only [hh, and_false, if_false]

/-- Highlighting a well-formed-tag-free chunk creates no tag beyond the
inserted wrappers (strong-induction core). -/
theorem nonMarkTags_highlightText_aux (q : List Char) :
    ∀ (n : Nat) (t : List Char), t.length ≤ n → NoTagIn t →
      nonMarkTags (highlightText q t) = [] := by
  intro n
  induction n with
  | zero =>
    intro t hlen _
    have ht : t = [] := List.eq_nil_of_length_eq_zero (Nat.le_zero.mp hlen)
    subst ht
    rw [show highlightText q [] = [] from by rw [highlightText]]
    rw [nonMarkTags, extractTags_nil]
    rfl
  | succ k ih =>
    intro t hlen h
    rcases t with _ | ⟨c, rest⟩
    · rw [show highlightText q [] = [] from by rw [highlightText]]
      rw [nonMarkTags, extractTags_nil]
      rfl
    by_cases hq : q = []
    · rw [highlightText, if_pos hq]
      rw [nonMarkTags, extractTags_eq_nil_of_noTagIn _ h]
      rfl
    by_cases hm : matchesAt q (c :: rest) = true
    · rw [highlightText, if_neg hq, if_pos hm]
      have hassoc : markOpen ++ (c :: rest).take q.length ++ markClose ++
          highlightText q ((c :: rest).drop q.length) =
          markOpen ++ ((c :: rest).take q.length ++ (markClose ++
            highlightText q ((c :: rest).drop q.length))) := by
        simp [List.append_assoc]
      rw [nonMarkTags, hassoc, extractTags_markOpen_append]
      have htake : NoTagIn ((c :: rest).take q.length) := noTagIn_take _ h _
      have hmchead : (markClose ++
          highlightText q ((c :: rest).drop q.length)).head? = some '<' := by
        rw [head?_append_left _ _ (by rw [markClose_eq]; simp)]
        rw [markClose_eq]
        rfl
      rw [extractTags_noTagIn_append _ _ htake (Or.inr hmchead),
        extractTags_markClose_append]
      have hdrop : nonMarkTags
          (highlightText q ((c :: rest).drop q.length)) = [] := by
        refine ih ((c :: rest).drop q.length) ?_ (noTagIn_drop _ h _)
        have hql : 0 < q.length := List.length_pos.mpr hq
        simp only [List.length_drop, List.length_cons]
        simp only [List.length_cons] at hlen
        omega
      rw [nonMarkTags] at hdrop
      rw [List.filter_cons, List.filter_cons,
        if_neg (by simp [isNonMark]), if_neg (by simp [isNonMark])]
      exact hdrop
    rw [highlightText, if_neg hq, if_neg hm]
    by_cases hc : c = '<'
    · subst hc
      rcases h.1 rfl with h0 | h0
      · rcases takeWhile_eq_nil_cases _ _ h0 with rfl | ⟨d, t2, hEq, hd⟩
        · rw [show highlightText q [] = [] from by rw [highlightText]]
          rw [nonMarkTags, extractTags_lt_cons_special [] rfl, extractTags_nil]
          rfl
        · subst hEq
          have hdgt : d = '>' := eq_gt_of_notGt_false d hd
          subst hdgt
          have hspec : (highlightText q ('>' :: t2)).takeWhile isTextChar = [] :=
            highlightText_head_special q '>' t2 (by decide)
          rw [nonMarkTags, extractTags_lt_cons_special _ hspec]
          have hrec := ih ('>' :: t2)
            (by simp only [List.length_cons] at hlen ⊢; omega) h.2
          rw [nonMarkTags] at hrec
          exact hrec
      · have hallgt : ∀ ch ∈ rest, ch ≠ '>' := by
          intro ch hch
          have := all_of_takeWhile_eq_self _ _ h0 ch hch
          simpa [notGt] using this
        have hfs := highlightText_firstSpecial q rest hallgt
        have hpre : (highlightText q rest).takeWhile isTextChar =
            (highlightText q rest).takeWhile notLt :=
          takeWhile_isText_eq_notLt _ hfs
        have hhead : ((highlightText q rest).drop
            ((highlightText q rest).takeWhile isTextChar).length).head? ≠
            some '>' := by
          rw [hpre, drop_takeWhile_length]
          intro hh
          have hfl := dropWhile_head_false notLt _ '>' hh
          exact absurd (eq_lt_of_notLt_false '>' hfl) (by decide)
        rw [nonMarkTags, extractTags_lt_cons_of_head_ne _ hhead]
        have hrec := ih rest
          (by simp only [List.length_cons] at hlen; omega) h.2
        rw [nonMarkTags] at hrec
        exact hrec
    · rw [nonMarkTags, extractTags_cons_of_ne c _ hc]
      have hrec := ih rest
        (by simp only [List.length_cons] at hlen; omega) h.2
      rw [nonMarkTags] at hrec
      exact hrec

/-- Highlighting a well-formed-tag-free chunk creates no tag beyond the
inserted wrappers. -/
theorem nonMarkTags_highlightText (q t : List Char) (h : NoTagIn t) :
    nonMarkTags (highlightText q t) = [] :=
  nonMarkTags_highlightText_aux q t.length t le_rfl h

/-- The scanner's output opens at `<` whenever its pending span does. -/
theorem hlScan_head_lt (q : List Char) :
    ∀ (l pending : List Char) (b : Bool), pending.head? = some '<' →
      (hlScan q pending b l).head? = some '<' := by
  intro l
  induction l with
  | nil =>
    intro pending b hp
    rw [hlScan]
    exact highlightText_head_lt q pending hp
  | cons ch rest ih =>
    intro pending b hp
    have hpne : pending ≠ [] := by
      intro hnil
      rw [hnil] at hp
      simp at hp
    rw [hlScan]
    by_cases h1 : ch = '<'
    · rw [if_pos h1]
      rw [head?_append_left _ _ (highlightText_ne_nil q pending hpne)]
      exact highlightText_head_lt q pending hp
    · rw [if_neg h1]
      by_cases h2 : ch = '>' ∧ b = true
      · rw [if_pos h2]
        rw [head?_append_left _ _ (by simp [hpne]),
          head?_append_left _ _ hpne]
        exact hp
      · rw [if_neg h2]
        refine ih (pending ++ [ch]) b ?_
        rw [head?_append_left _ _ hpne]
        exact hp

/-- The state invariant of the tag-boundary scanner: inside a tag the
pending span is `<` followed by ordinary characters; outside it holds no
`<` at all. -/
def InvPending (pending : List Char) (inTag : Bool) : Prop :=
  if inTag then ∃ u, pending = '<' :: u ∧ ∀ ch ∈ u, isTextChar ch = true
  else ∀ ch ∈ pending, ch ≠ '<'

/-- A `<`-free string is well-formed-tag-free. -/
theorem noTagIn_of_no_lt (l : List Char) (h : ∀ ch ∈ l, ch ≠ '<') :
    NoTagIn l := by
  induction l with
  | nil => trivial
  | cons c rest ih =>
    exact ⟨fun hc => absurd hc (h c (List.mem_cons_self _ _)),
      ih (fun ch hch => h ch (List.mem_cons_of_mem _ hch))⟩

/-- The scanner invariant implies the pending span is tag-free. -/
theorem invPending_noTagIn (pending : List Char) (b : Bool)
    (h : InvPending pending b) : NoTagIn pending := by
  rcases b with _ | _
  · exact noTagIn_of_no_lt pending (by simpa [InvPending] using h)
  · obtain ⟨u, rfl, hu⟩ := (by simpa [InvPending] using h :
      ∃ u, pending = '<' :: u ∧ ∀ ch ∈ u, isTextChar ch = true)
    refine ⟨fun _ => Or.inr ?_, ?_⟩
    · exact takeWhile_eq_self_of_all _ _ (fun ch hch => by
        have := hu ch hch
        simp only [isTextChar, decide_eq_true_eq] at this
        simp [notGt, this.2])
    · refine noTagIn_of_no_lt u (fun ch hch => ?_)
      have := hu ch hch
      simp only [isTextChar, decide_eq_true_eq] at this
      exact this.1

/-- The main scanner lemma: the non-wrapper tags of the output are exactly
those of the remaining input prefixed by the pending span. -/
theorem hlScan_nonMarkTags (q : List Char) :
    ∀ (l pending : List Char) (b : Bool), InvPending pending b →
      nonMarkTags (hlScan q pending b l) = nonMarkTags (pending ++ l) := by
  intro l
  induction l with
  | nil =>
    intro pending b hInv
    rw [hlScan, List.append_nil]
    rw [nonMarkTags_highlightText q pending (invPending_noTagIn _ _ hInv)]
    rw [nonMarkTags,
      extractTags_eq_nil_of_noTagIn _ (invPending_noTagIn _ _ hInv)]
    rfl
  | cons ch rest ih =>
    intro pending b hInv
    rw [hlScan]
    by_cases h1 : ch = '<'
    · rw [if_pos h1]
      subst h1
      have hXhead : (hlScan q ['<'] true rest).head? = some '<' :=
        hlScan_head_lt q rest ['<'] true rfl
      have hsplit := extractTags_append (highlightText q pending)
        (hlScan q ['<'] true rest) (Or.inr hXhead)
      have hL1 := nonMarkTags_highlightText q pending
        (invPending_noTagIn _ _ hInv)
      have hIH := ih ['<'] true ⟨[], rfl, by simp⟩
      have hRHS : extractTags (pending ++ '<' :: rest) =
          extractTags ('<' :: rest) :=
        extractTags_noTagIn_append _ _ (invPending_noTagIn _ _ hInv)
          (Or.inr rfl)
      simp only [nonMarkTags, List.singleton_append] at hL1 hIH ⊢
      rw [hsplit, List.filter_append, hL1, List.nil_append, hIH, hRHS]
    · by_cases h2 : ch = '>' ∧ b = true
      · rw [if_neg h1, if_pos h2]
        obtain ⟨rfl, rfl⟩ := h2
        obtain ⟨u, rfl, hu⟩ := (by simpa [InvPending] using hInv :
          ∃ u, pending = '<' :: u ∧ ∀ ch ∈ u, isTextChar ch = true)
        have hIH := ih [] false (by simp [InvPending])
        simp only [nonMarkTags, List.nil_append] at hIH ⊢
        rcases u with _ | ⟨u0, ur⟩
        · have hstepL : (('<' :: ([] : List Char)) ++ ['>']) ++
              hlScan q [] false rest = '<' :: '>' :: hlScan q [] false rest := by
            simp
          have hstepR : ('<' :: ([] : List Char)) ++ '>' :: rest =
              '<' :: '>' :: rest := by simp
          rw [hstepL, hstepR,
            extractTags_lt_cons_special ('>' :: hlScan q [] false rest)
              (takeWhile_eq_nil_of_head _ ('>' :: hlScan q [] false rest) '>'
                rfl (by decide)),
            extractTags_cons_of_ne '>' (hlScan q [] false rest) (by decide),
            extractTags_lt_cons_special ('>' :: rest)
              (takeWhile_eq_nil_of_head _ ('>' :: rest) '>' rfl (by decide)),
            extractTags_cons_of_ne '>' rest (by decide), hIH]
        · have hune : (u0 :: ur) ≠ [] := List.cons_ne_nil _ _
          have hstepL : (('<' :: (u0 :: ur)) ++ ['>']) ++
              hlScan q [] false rest =
              '<' :: ((u0 :: ur) ++ '>' :: hlScan q [] false rest) := by
            simp
          have hstepR : ('<' :: (u0 :: ur)) ++ '>' :: rest =
              '<' :: ((u0 :: ur) ++ '>' :: rest) := by simp
          rw [hstepL, hstepR,
            extractTags_tag_append _ _ hune hu,
            extractTags_tag_append _ _ hune hu,
            List.filter_cons, List.filter_cons, hIH]
      · rw [if_neg h1, if_neg h2]
        have hInv2 : InvPending (pending ++ [ch]) b := by
          rcases b with _ | _
          · have hp : ∀ d ∈ pending, d ≠ '<' := by
              simpa [InvPending] using hInv
            simp only [InvPending, Bool.false_eq_true, if_false]
            intro d hd
            rcases List.mem_append.mp hd with hd1 | hd1
            · exact hp d hd1
            · rw [List.mem_singleton] at hd1
              subst hd1
              exact h1
          · obtain ⟨u, rfl, hu⟩ := (by simpa [InvPending] using hInv :
              ∃ u, pending = '<' :: u ∧ ∀ ch ∈ u, isTextChar ch = true)
            have hgt : ch ≠ '>' := fun hEq => h2 ⟨hEq, rfl⟩
            simp only [InvPending, if_true]
            refine ⟨u ++ [ch], by simp, fun d hd => ?_⟩
            rcases List.mem_append.mp hd with hd1 | hd1
            · exact hu d hd1
            · rw [List.mem_singleton] at hd1
              subst hd1
              simp [isTextChar, h1, hgt]
        rw [ih (pending ++ [ch]) b hInv2]
        congr 1
        simp

/-- Without any `<[^>]+>` occurrence the string is well-formed-tag-free. -/
theorem hasTagPat_false_noTagIn (t : List Char) (h : hasTagPat t = false) :
    NoTagIn t := by
  induction t with
  | nil => trivial
  | cons c rest ih =>
    rw [hasTagPat] at h
    by_cases hc : c = '<'
    · rw [if_pos hc] at h
      simp only [Bool.or_eq_false_iff] at h
      refine ⟨fun _ => ?_, ih h.2⟩
      have h1 := h.1
      by_cases hpe : rest.takeWhile notGt = []
      · exact Or.inl hpe
      · right
        have hlen : ¬ ((rest.takeWhile notGt).length < rest.length) := by
          intro hlt
          rw [Bool.and_eq_false_iff] at h1
          rcases h1 with h1 | h1
          · simp only [ne_eq, decide_eq_false_iff_not, not_not] at h1
            exact hpe h1
          · simp only [decide_eq_false_iff_not] at h1
            exact h1 hlt
        have hle : (rest.takeWhile notGt).length ≤ rest.length :=
          (List.takeWhile_prefix _).length_le
        exact List.IsPrefix.eq_of_length (List.takeWhile_prefix _) (by omega)
    · rw [if_neg hc] at h
      exact ⟨fun hcc => absurd hcc hc, ih h⟩

/-- Character lists round-trip through `String.mk`. -/
theorem toList_mk (l : List Char) : (String.mk l).toList = l := rfl

/-- Claim C8: highlighting rewrites only text runs outside `<…>` tag spans.
The `<` count of the output is the input's plus exactly two per inserted
wrapper, and the sequence of well-formed tags other than the inserted
wrappers is unchanged (no tag altered, duplicated or dropped), for every
HTML input and query. -/
theorem claim_C8 (html query : String) :
    (highlightSearchMatch html query).toList.count '<' =
      html.toList.count '<' + 2 * highlightRuns html query ∧
    nonMarkTags (highlightSearchMatch html query).toList =
      nonMarkTags html.toList := by
  rw [highlightSearchMatch, highlightRuns]
  by_cases hg : jsTrim query = "" ∨ html = ""
  · rw [if_pos hg, if_pos hg]
    exact ⟨by omega, rfl⟩
  rw [if_neg hg, if_neg hg]
  by_cases hpat : hasTagPat html.toList = true
  · have hpat' : hasTagPat html.data = true := hpat
    rw [if_neg (by simp [hpat']), if_neg (by simp [hpat'])]
    constructor
    · rw [toList_mk, hlScan_count]
      simp [hlScanCount]
    · rw [toList_mk,
        hlScan_nonMarkTags (jsTrim query).toList html.toList [] false
          (by simp [InvPending])]
      rw [List.nil_append]
  · have hpat' : hasTagPat html.data = false := by
      have : hasTagPat html.toList = false := by simpa using hpat
      exact this
    rw [if_pos (by simp [hpat']), if_pos (by simp [hpat'])]
    have hnt := hasTagPat_false_noTagIn html.toList (by simpa using hpat)
    constructor
    · rw [toList_mk, highlightText_count]
    · rw [toList_mk, nonMarkTags_highlightText _ _ hnt]
      rw [nonMarkTags, extractTags_eq_nil_of_noTagIn _ hnt]
      rfl

/-- Claim C4: the pass emits at most one message per record (the source
indices are strictly increasing, hence pairwise distinct), the output is
never longer than the input, and the emission order equals the source
order (the instrumented pass, whose indices increase, projects onto the
plain output). -/
theorem claim_C4 (P : Platform) (c : Ctx) (messages : List Message)
    (mm : Option Nat) :
    (processMessages P c messages mm).length ≤ messages.length ∧
    (processMessagesIdx P c messages mm).map Prod.snd =
      processMessages P c messages mm ∧
    ((processMessagesIdx P c messages mm).map Prod.fst).Pairwise (· < ·) := by
  refine ⟨?_, ?_, ?_⟩
  · exact processAux_length P c messages _ []
  · exact processAuxIdx_map_snd P c messages _ 0 []
  · exact processAuxIdx_sorted P c messages _ 0 []

end SkypeLens
